import Mathlib

/-
  Verification of the path-lite geometry core (path-lite.js and its helper
  files) against its natural-language specification.

  Modelling conventions:
  * JavaScript numbers are idealised as real numbers; `Number.EPSILON`
    becomes the exact rational constant `jsEps = 2⁻⁵²`.
  * Fallible operations return `Option`; `none` models a thrown exception
    (for example `Array(-1)` raising `RangeError`) or a `null` result,
    as noted at each definition.
  * `Array.prototype.sort` (stable for consistent comparators) is modelled
    by insertion sort inserting later elements after comparator-equal
    earlier ones, which reproduces the stable order.
  * Vectors (class `Vector`) are value records; `copy()` is the identity
    on the modelled value.
-/

noncomputable section

open Real

/-- Machine epsilon `Number.EPSILON` = 2⁻⁵² exactly. -/
def jsEps : ℝ := 1 / 2 ^ 52

/-- From helpers: `clamp(a, l=0, h=1)`; swaps the bounds when `h < l`,
then clamps `a` into `[l, h]`. -/
def clamp (a l h : ℝ) : ℝ :=
  if h < l then max (min a l) h else max (min a h) l

/-- Truncation toward zero of a real number, as an integer; models the
implicit truncation in the JavaScript `%` operator. -/
def rtrunc (a : ℝ) : ℤ :=
  if 0 ≤ a then ⌊a⌋ else -⌊-a⌋

/-- The JavaScript remainder operator `a % b` on numbers: the remainder of
the division truncated toward zero (sign follows the dividend). -/
def jsMod (a b : ℝ) : ℝ :=
  a - b * (rtrunc (a / b) : ℝ)

/-- From helpers: `wrap(a, r) = (a + ceil(|a / r|) * r) % r`. -/
def wrap (a r : ℝ) : ℝ :=
  jsMod (a + (⌈|a / r|⌉ : ℝ) * r) r

/-- From helpers: `safeDivide(a, b)`; returns 0 when `b < Number.EPSILON`. -/
def safeDivide (a b : ℝ) : ℝ :=
  if b < jsEps then 0 else a / b

/-- From helpers: `mapValue(n, start1, stop1, start2, stop2, withinBounds)`. -/
def mapValue (n start1 stop1 start2 stop2 : ℝ) (withinBounds : Bool) : ℝ :=
  let newval := (n - start1) / (stop1 - start1) * (stop2 - start2) + start2
  if withinBounds then clamp newval (min start2 stop2) (max start2 stop2) else newval

/-- From helpers: `logistic(_a, lo=0, hi=1)`; all call sites use the default
bounds.  `a = mapValue(_a, 0, 1, 0, 1, true)` then the raised-cosine ramp. -/
def logistic (a0 : ℝ) : ℝ :=
  let a := mapValue a0 0 1 0 1 true
  if a ≤ 0 then 0 else if 1 ≤ a then 1 else (1 - Real.cos (π * a)) / 2

/-- From helpers: `noNAN(a, d=0)`.  Real numbers have no NaN, so on the
idealised model this is the identity. -/
def noNAN (a : ℝ) : ℝ := a

/-- `Math.atan2(y, x)` of JavaScript, idealised over the reals. -/
def atan2 (y x : ℝ) : ℝ :=
  if 0 < x then Real.arctan (y / x)
  else if x < 0 ∧ 0 ≤ y then Real.arctan (y / x) + π
  else if x < 0 ∧ y < 0 then Real.arctan (y / x) - π
  else if x = 0 ∧ 0 < y then π / 2
  else if x = 0 ∧ y < 0 then -(π / 2)
  else 0

/-- `Math.sign(v || 1)` as used in `_angleBetween`: a zero (falsy) value is
replaced by 1 before taking the sign. -/
def signOr1 (v : ℝ) : ℝ :=
  if v = 0 then 1 else if 0 < v then 1 else -1

/-- From helpers: `Array.prototype.sum` via `reduceArray` with initial
value 0, i.e. a left fold of addition. -/
def listSum (l : List ℝ) : ℝ := l.foldl (· + ·) 0

/-- Accumulator loop of `Array.prototype.cumulativeSum`: starting from the
partial sum `p`, push `p + c` for each element `c`. -/
def cumAux (p : ℝ) : List ℝ → List ℝ
  | [] => []
  | c :: t => (p + c) :: cumAux (p + c) t

/-- From helpers: `Array.prototype.cumulativeSum()`; the list of running
partial sums (same length as the input). -/
def cumulativeSum (l : List ℝ) : List ℝ := cumAux 0 l

/-- From helpers: `range(n)` for a single numeric argument.  `Array(n)`
throws a `RangeError` for negative `n`, modelled by `none`. -/
def jsRange (n : ℤ) : Option (List ℕ) :=
  if n < 0 then none else some (List.range n.toNat)

/-- From helpers: `Array.prototype.at(v)`, python-style wrapped indexing
with positive modulo; `null` (here `none`) on an empty array. -/
def jsAt {α : Type} (l : List α) (i : ℤ) : Option α :=
  if l.length = 0 then none else l.get? (i % (l.length : ℤ)).toNat

/-- `jsAt` with a default value, for call sites where the source
dereferences the result directly (guaranteed non-null there). -/
def jsAtD {α : Type} (l : List α) (i : ℤ) (d : α) : α :=
  (jsAt l i).getD d

/-- Loop of `Array.prototype.indexInterpolated`:
`while ((i + 2) < l && _[i + 1] < v) i++`. -/
def indexInterpolatedGo (l : List ℝ) (v : ℝ) (i : ℕ) : ℕ :=
  if i + 2 < l.length ∧ l.getD (i + 1) 0 < v then
    indexInterpolatedGo l v (i + 1)
  else i
termination_by l.length - i
decreasing_by
  rename_i h
  omega

/-- From helpers: `Array.prototype.indexInterpolated(v)`. -/
def indexInterpolated (l : List ℝ) (v : ℝ) : ℝ :=
  let i := indexInterpolatedGo l v 0
  if l.length < 2 then 0
  else (i : ℝ) + clamp ((v - l.getD i 0) / (l.getD (i + 1) 0 - l.getD i 0)) 0 1

/-- Stable sort by a JavaScript comparator: `Array.prototype.sort(cmp)` for
a consistent comparator is a stable sort, reproduced by insertion sort
(from the right) inserting each element before the first strictly-greater
one, i.e. with the relation `cmp a b ≤ 0`. -/
def jsSortBy {α : Type} (cmp : α → α → ℝ) (l : List α) : List α :=
  l.insertionSort (fun a b => cmp a b ≤ 0)

/-- From helpers: `Array.prototype.argAt(compare)`: index of the first
element of the comparator-sorted pair list, `null` (`none`) when empty. -/
def argAt {α : Type} (l : List α) (cmp : α → α → ℝ) : Option ℕ :=
  ((jsSortBy (fun p q => cmp p.2 q.2) l.enum).head?).map (·.1)

/-- The `Vector` class (3 real components).  Named `Vec` to avoid clashing
with Mathlib's `Vector`. -/
@[ext]
structure Vec where
  x : ℝ
  y : ℝ
  z : ℝ

/-- A component-pattern character of `Vector.copy(pattern)`: one of
`'x'`, `'y'`, `'z'` or any other character (contributing 0). -/
inductive PatChar where
  | cx
  | cy
  | cz
  | other

/-- A copy/metric pattern: a string over pattern characters.  The
`lengthMetric` of a path is an optional pattern (`null` = full metric). -/
def Pat := List PatChar

/-- Component selected by a pattern character. -/
def patComp (v : Vec) : PatChar → ℝ
  | .cx => v.x
  | .cy => v.y
  | .cz => v.z
  | .other => 0

/-- `Vector.copy(pattern)`: with a pattern, build a vector from the first
(at most 3) selected components, missing components defaulting to 0;
without one, an identical copy (the identity on the modelled value). -/
def Vec.copyPat (v : Vec) : Option Pat → Vec
  | none => v
  | some p =>
      let l := (p.take 3).map (patComp v)
      ⟨l.getD 0 0, l.getD 1 0, l.getD 2 0⟩

/-- The pattern `'xy'`. -/
def patXY : Pat := [PatChar.cx, PatChar.cy]

def Vec.add (a b : Vec) : Vec := ⟨a.x + b.x, a.y + b.y, a.z + b.z⟩

def Vec.sub (a b : Vec) : Vec := ⟨a.x - b.x, a.y - b.y, a.z - b.z⟩

/-- `Vector.mult(s)` with a single scalar argument. -/
def Vec.multS (a : Vec) (s : ℝ) : Vec := ⟨a.x * s, a.y * s, a.z * s⟩

def Vec.dot (a b : Vec) : ℝ := a.x * b.x + a.y * b.y + a.z * b.z

def Vec.cross (a b : Vec) : Vec :=
  ⟨a.y * b.z - a.z * b.y, a.z * b.x - a.x * b.z, a.x * b.y - a.y * b.x⟩

def Vec.magSq (a : Vec) : ℝ := a.x * a.x + a.y * a.y + a.z * a.z

/-- `Vector.mag()` with no argument: `sqrt(magSq())`. -/
def Vec.mag (a : Vec) : ℝ := Real.sqrt a.magSq

/-- `Vector.normalize()`: multiply by the reciprocal length unless the
length is zero, in which case the vector is returned unchanged. -/
def Vec.normalize (a : Vec) : Vec :=
  if a.mag = 0 then a else a.multS (1 / a.mag)

/-- `Vector.norm()` is an alias of `normalize()`. -/
def Vec.norm (a : Vec) : Vec := a.normalize

/-- `Vector.mag(n)` with an argument: `copy().normalize().mult(n)`. -/
def Vec.magSet (a : Vec) (n : ℝ) : Vec := a.normalize.multS n

/-- `Vector.dist(v, pattern)`: `v.copy(pattern).sub(this.copy(pattern)).mag()`. -/
def Vec.distP (a v : Vec) (pattern : Option Pat) : ℝ :=
  ((v.copyPat pattern).sub (a.copyPat pattern)).mag

/-- `Vector.dist(v)` with the default `null` pattern. -/
def Vec.dist (a v : Vec) : ℝ := a.distP v none

/-- `Vector.lerp` with a vector first argument and parameter `amt`:
each component gets `(target - current) * amt` added. -/
def Vec.lerp (a b : Vec) (amt : ℝ) : Vec :=
  ⟨a.x + (b.x - a.x) * amt, a.y + (b.y - a.y) * amt, a.z + (b.z - a.z) * amt⟩

/-- `Vector.heading()`: `atan2(y, x)`. -/
def Vec.heading (a : Vec) : ℝ := atan2 a.y a.x

/-- `Vector.fromAngle(angle)` with default length 1 (ignores the receiver). -/
def Vec.fromAngle (θ : ℝ) : Vec := ⟨Real.cos θ, Real.sin θ, 0⟩

/-- `Vector._angleBetween(v)`: arccos of the clamped normalised dot
product, signed by `Math.sign(cross.z || 1)`. -/
def Vec.angleBetweenRaw (a v : Vec) : ℝ :=
  Real.arccos (min 1 (max (-1) (a.dot v / (a.mag * v.mag)))) * signOr1 (a.cross v).z

/-- `Vector.angleBetween(v)`: 0 unless both vectors are longer than
`Number.EPSILON`. -/
def Vec.angleBetween (a v : Vec) : ℝ :=
  if jsEps < a.mag ∧ jsEps < v.mag then a.angleBetweenRaw v else 0

/-- `Vector.project(b, r=0)` for `r = 0` (used by `queryPointToSegmentOV`):
the orthogonal projection `b̂ * (b̂ · this)` of the receiver onto `b`. -/
def Vec.project (w b : Vec) : Vec := b.norm.magSet (b.norm.dot w)

/-- From path-lite.js: `tripletOrientation(p, q, r)`; 0 = colinear,
1 = clockwise, 2 = counterclockwise (sign of the cross determinant). -/
def tripletOrientation (p q r : Vec) : ℤ :=
  let val := (q.y - p.y) * (r.x - q.x) - (q.x - p.x) * (r.y - q.y)
  if val = 0 then 0 else if 0 < val then 1 else 2

/-- From path-lite.js: `pointOnSegment(p, q, r)`: given colinear points,
does `q` lie in the bounding box of `p` and `r`? -/
def pointOnSegment (p q r : Vec) : Prop :=
  q.x ≤ max p.x r.x ∧ min p.x r.x ≤ q.x ∧ q.y ≤ max p.y r.y ∧ min p.y r.y ≤ q.y

instance (p q r : Vec) : Decidable (pointOnSegment p q r) := by
  unfold pointOnSegment
  exact Classical.propDecidable _

open Classical in
/-- From path-lite.js: `segmentsIntersect(p1, q1, p2, q2)`; documented to
return -1 for no intersection, 0 for intersection by end point, +1 for
intersection by segment line. -/
def segmentsIntersect (p1 q1 p2 q2 : Vec) : ℤ :=
  let o1 := tripletOrientation p1 q1 p2
  let o2 := tripletOrientation p1 q1 q2
  let o3 := tripletOrientation p2 q2 p1
  let o4 := tripletOrientation p2 q2 q1
  if o1 ≠ o2 ∧ o3 ≠ o4 then 1
  else if (o1 = 0 ∧ pointOnSegment p1 p2 q1) ∨ (o2 = 0 ∧ pointOnSegment p1 q2 q1)
      ∨ (o3 = 0 ∧ pointOnSegment p2 p1 q2) ∨ (o4 = 0 ∧ pointOnSegment p2 q1 q2) then 0
  else -1

/-- The zero vector, default for unreachable dereferences. -/
def vec0 : Vec := ⟨0, 0, 0⟩

/-- From path-lite.js: the list of per-segment lengths computed by
`calcPathLength(samples, closed, true, distPattern)`.  For an open path
the mapped list drops the last sample; the successor
`samples.at(sampleIndex + 1)` is wrapped indexing on the full list, so a
closed path includes the wraparound segment from last to first vertex. -/
def calcSegLengths (samples : List Vec) (closed : Bool) (pattern : Option Pat) :
    List ℝ :=
  (if closed then samples else samples.take (samples.length - 1)).mapIdx
    (fun i s => s.distP (jsAtD samples ((i : ℤ) + 1) vec0) pattern)

/-- From path-lite.js: the total length returned by `calcPathLength`
(the `sum` of all segment lengths). -/
def calcPathLength (samples : List Vec) (closed : Bool) (pattern : Option Pat) : ℝ :=
  listSum (calcSegLengths samples closed pattern)

/-- `PathLite._nSegments`: `vertices.length - (closed ? 0 : 1)`.  This is
-1 for an empty open path. -/
def nSegments (verts : List Vec) (closed : Bool) : ℤ :=
  (verts.length : ℤ) - (if closed then 0 else 1)

/-- `PathLite._length_segments_cumulative`: cumulative sums of the segment
lengths (recomputed by `_cleanLength`). -/
def pathCumulative (verts : List Vec) (closed : Bool) (metric : Option Pat) : List ℝ :=
  cumulativeSum (calcSegLengths verts closed metric)

/-- `PathLite.get offsets`: `[0].concat(cumulative).splice(0, vertices.length)`,
i.e. the first `vertices.length` entries of 0 followed by the cumulative
segment sums. -/
def pathOffsets (verts : List Vec) (closed : Bool) (metric : Option Pat) : List ℝ :=
  ((0 : ℝ) :: pathCumulative verts closed metric).take verts.length

/-- `PathLite._getIndexInterpolatedAt(offset)`: clamp the offset to
`[0, length]`, interpolate an index in the `[0].concat(cumulative)` table,
clamp it to `[0, nSegments]` and wrap modulo `nSegments` when closed. -/
def getIndexInterpolatedAt (verts : List Vec) (closed : Bool) (metric : Option Pat)
    (offset : ℝ) : ℝ :=
  let len := calcPathLength verts closed metric
  let off := clamp offset 0 len
  let ii := clamp (indexInterpolated ((0 : ℝ) :: pathCumulative verts closed metric) off)
    0 ((nSegments verts closed : ℤ) : ℝ)
  if closed then jsMod ii ((nSegments verts closed : ℤ) : ℝ) else ii

/-- `PathLite.getPointAt(offset)`: floor/ceil the interpolated index and
lerp between the two bracketing vertices (wrapped indexing). -/
def getPointAt (verts : List Vec) (closed : Bool) (metric : Option Pat)
    (offset : ℝ) : Vec :=
  let ii := getIndexInterpolatedAt verts closed metric offset
  let lo : ℤ := ⌊ii⌋
  let hi : ℤ := ⌈ii⌉
  let param := ii - (lo : ℝ)
  (jsAtD verts lo vec0).lerp (jsAtD verts hi vec0) param

/-- A curve location: the object built by `getNearestLocation` (the
`offset` field is attached after the nearest segment is selected). -/
structure CurveLoc where
  point : Vec
  distance : ℝ
  index : ℕ
  offset : ℝ

/-- From path-lite.js: `queryPointToSegmentOV(point, segmentOrigin,
segmentVector)`: the projected point and its distance when the point
projects inside the segment (two dot-product sign tests against
`-Number.EPSILON`), otherwise the nearer endpoint (the source sorts the
two endpoints by distance and takes the first; on a tie the stable sort
keeps the origin first). -/
def queryPointToSegmentOV (point o v : Vec) : Vec × ℝ :=
  if -jsEps ≤ (point.sub o).dot v ∧ -jsEps ≤ (point.sub (o.add v)).dot (v.multS (-1)) then
    let pt := ((point.sub o).project v).add o
    (pt, point.dist pt)
  else
    let e2 := o.add v
    if point.dist e2 < point.dist o then (e2, point.dist e2) else (o, point.dist o)

/-- From path-lite.js: `queryPointToSegmentAB(point, segmentStart,
segmentEnd)`. -/
def queryPointToSegmentAB (point a b : Vec) : Vec × ℝ :=
  queryPointToSegmentOV point a (b.sub a)

/-- Comparator of `getNearestLocation`: by distance first, then index. -/
def cmpDistIndex (a b : CurveLoc) : ℝ :=
  if a.distance = b.distance then (a.index : ℝ) - (b.index : ℝ)
  else a.distance - b.distance

/-- From path-lite.js: `PathLite.getNearestLocation(point)` over the clean
vertex list.  The outer `Option` models a thrown exception: for an empty
open path `_nSegments` is -1 and `range(-1)` evaluates `Array(-1)`, which
throws a `RangeError` (`none`).  The inner `Option` is the `null` result
when there is no segment.  Otherwise the nearest location (distance-then-
index stable sort, first element) gets its `offset` attached from the
cumulative table, clamped to `[0, length]`. -/
def getNearestLocation (verts : List Vec) (closed : Bool) (metric : Option Pat)
    (point : Vec) : Option (Option CurveLoc) :=
  match jsRange (nSegments verts closed) with
  | none => none
  | some idxs =>
    let locs := idxs.map (fun (i : ℕ) =>
      let q := queryPointToSegmentAB point (jsAtD verts (i : ℤ) vec0)
        (jsAtD verts ((i : ℤ) + 1) vec0)
      ({point := q.1, distance := q.2, index := i, offset := 0} : CurveLoc))
    match (jsSortBy cmpDistIndex locs).head? with
    | none => some none
    | some cl =>
        let cum := pathCumulative verts closed metric
        some (some { cl with
          offset := clamp (jsAtD ((0 : ℝ) :: cum) (cl.index : ℤ) 0 +
              cl.point.dist (verts.getD cl.index vec0))
            0 (calcPathLength verts closed metric) })

/-- The per-vertex copy made by `PathLite._cleanVertices`: `i.copy()` when
`useZ`, else `i.copy().copy('xy')`. -/
def cleanOne (useZ : Bool) (v : Vec) : Vec :=
  if useZ then v.copyPat none else (v.copyPat none).copyPat (some patXY)

/-- The vertex list computed by `PathLite._cleanVertices` from the stored
originals. -/
def cleanVerts (useZ : Bool) (orig : List Vec) : List Vec :=
  orig.map (cleanOne useZ)

/-- The mutable state of a `PathLite` instance: the stored originals, the
three configuration fields, and the lazily-filled caches guarded by the
two dirty flags. -/
structure PathState where
  verticesOriginal : List Vec
  closed : Bool
  useZ : Bool
  lengthMetric : Option Pat
  verticesCache : List Vec
  verticesDirty : Bool
  lengthCache : ℝ
  lengthSegments : List ℝ
  lengthCumulative : List ℝ
  lengthDirty : Bool

/-- `PathLite._cleanVertices()`: recompute the vertex cache from the
originals when the vertex-dirty flag is set. -/
def PathState.cleanVertices (s : PathState) : PathState :=
  if s.verticesDirty then
    { s with
      verticesDirty := false
      verticesCache := cleanVerts s.useZ s.verticesOriginal }
  else s

/-- `PathLite.get vertices`: clean, then return the cache array itself
(the returned reference aliases `this._vertices`). -/
def PathState.readVertices (s : PathState) : List Vec × PathState :=
  (s.cleanVertices.verticesCache, s.cleanVertices)

/-- `PathLite._cleanLength()`: when the length-dirty flag is set, clear it
and recompute `_length`, `_length_segments` (via `calcPathLength` on the
clean vertices) and `_length_segments_cumulative`. -/
def PathState.cleanLength (s : PathState) : PathState :=
  if s.lengthDirty then
    let s1 := s.cleanVertices
    let segs := calcSegLengths s1.verticesCache s1.closed s1.lengthMetric
    { s1 with
      lengthDirty := false
      lengthCache := listSum segs
      lengthSegments := segs
      lengthCumulative := cumulativeSum segs }
  else s

/-- `PathLite.get length`. -/
def PathState.readLength (s : PathState) : ℝ × PathState :=
  (s.cleanLength.lengthCache, s.cleanLength)

/-- `PathLite.get offsets`: clean the length caches, then return
`[0].concat(cumulative).splice(0, this.vertices.length)` (the `vertices`
getter cleans the vertex cache again). -/
def PathState.readOffsets (s : PathState) : List ℝ × PathState :=
  let s1 := s.cleanLength.cleanVertices
  (((0 : ℝ) :: s1.lengthCumulative).take s1.verticesCache.length, s1)

/-- `set closed(value)`: store and flag the length caches dirty. -/
def PathState.setClosed (s : PathState) (b : Bool) : PathState :=
  { s with closed := b, lengthDirty := true }

/-- `set useZ(value)`: store and flag the vertex cache dirty (which
transitively flags the length caches dirty). -/
def PathState.setUseZ (s : PathState) (b : Bool) : PathState :=
  { s with useZ := b, verticesDirty := true, lengthDirty := true }

/-- `set lengthMetric(value)`: store and flag the length caches dirty. -/
def PathState.setLengthMetric (s : PathState) (m : Option Pat) : PathState :=
  { s with lengthMetric := m, lengthDirty := true }

/-- `set vertices(value)`: store non-destructive copies of the incoming
vectors as the new originals and flag the vertex cache dirty (which
transitively flags the length caches dirty).  The flat-coordinate-list
overload of the source coerces to a `Vector` first; the model takes the
vector form. -/
def PathState.setVertices (s : PathState) (xs : List Vec) : PathState :=
  { s with
    verticesOriginal := xs.map (fun v => v.copyPat none)
    verticesDirty := true
    lengthDirty := true }

/-- The `PathLite` constructor: assign `this.vertices` through the setter,
all other fields to their defaults, caches unset and dirty. -/
def PathState.init (xs : List Vec) : PathState :=
  PathState.setVertices ⟨[], false, false, none, [], true, 0, [], [], true⟩ xs

/-- Reachable-state invariant: whenever a dirty flag is clear, the
corresponding cache agrees with a recomputation from the current stored
fields (and a clean length cache implies a clean vertex cache, since
`_flagVerticesDirty` also flags the length dirty). -/
def WF (s : PathState) : Prop :=
  (s.verticesDirty = false → s.verticesCache = cleanVerts s.useZ s.verticesOriginal) ∧
  (s.lengthDirty = false →
    s.verticesDirty = false ∧
    s.lengthSegments =
      calcSegLengths (cleanVerts s.useZ s.verticesOriginal) s.closed s.lengthMetric ∧
    s.lengthCache = listSum s.lengthSegments ∧
    s.lengthCumulative = cumulativeSum s.lengthSegments)

/-- The value the spec says a `vertices` read must produce: a recomputation
from the current stored vertex set and `useZ`. -/
def specVertices (s : PathState) : List Vec := cleanVerts s.useZ s.verticesOriginal

/-- The value the spec says a `length` read must produce: a recomputation
from the current vertex set, closed flag and metric. -/
def specLength (s : PathState) : ℝ :=
  calcPathLength (specVertices s) s.closed s.lengthMetric

/-- The value the spec says an `offsets` read must produce. -/
def specOffsets (s : PathState) : List ℝ :=
  pathOffsets (specVertices s) s.closed s.lengthMetric

/-- An in-place mutation, by the caller, of entry `j` of the array
previously returned by `get vertices`.  The getter returns
`this._vertices` itself (path-lite.js, `get vertices`), so the caller's
array reference aliases the vertex cache: an assignment such as
`p.vertices[j].x = …` (or holding the array and writing through it later)
lands directly in the cache.  The dirty flags are untouched. -/
def mutateGottenVertex (s : PathState) (j : ℕ) (v : Vec) : PathState :=
  { s with verticesCache := s.verticesCache.set j v }

/-- From path-lite.js `smoothPath`: the pre-calculated index offsets
`[[0], range(radius).map(r => [-(r+1), r+1])].flat(2)`. -/
def smoothIndexOffsets (radius : ℕ) : List ℤ :=
  (0 : ℤ) :: (List.range radius).flatMap (fun r => [-(r + 1 : ℤ), (r + 1 : ℤ)])

/-- From path-lite.js `smoothPath`: the logistic falloff weight of each
index offset, `logistic(1 - Math.abs(indexOffset / (radius + 1)))`. -/
def smoothWeights (radius : ℕ) : List ℝ :=
  (smoothIndexOffsets radius).map
    (fun (off : ℤ) => logistic (1 - |(off : ℝ) / ((radius : ℝ) + 1)|))

/-- One smoothing iteration of `smoothPath` on a `PathLite` vertex list:
each output vertex is the weight-summed average (safe-divided) of the
vertices at `segmentIndex + indexOffsets[i]` — selected with the circular
`Array.prototype.at` regardless of the path's closed flag.  A `null`
`weights` argument means a user weight of 1 everywhere (the only form the
claims exercise; a present `weights` list is read with the same circular
indexing). -/
def smoothOnceVerts (verts : List Vec) (radius : ℕ) (weights : Option (List ℝ)) :
    List Vec :=
  (List.range verts.length).map (fun (segmentIndex : ℕ) =>
    let offs := smoothIndexOffsets radius
    let ws := smoothWeights radius
    let acc := (List.range (1 + 2 * radius)).foldl
      (fun (pw : Vec × ℝ) i =>
        let thisPoint := jsAtD verts ((segmentIndex : ℤ) + offs.getD i 0) vec0
        let weightUser : ℝ := match weights with
          | none => 1
          | some w => (jsAt w ((segmentIndex : ℤ) + offs.getD i 0)).getD 0
        let weight := ws.getD i 0 * weightUser
        (⟨pw.1.x + thisPoint.x * weight, pw.1.y + thisPoint.y * weight,
          pw.1.z + thisPoint.z * weight⟩, pw.2 + weight))
      (vec0, 0)
    ⟨safeDivide acc.1.x acc.2, safeDivide acc.1.y acc.2, safeDivide acc.1.z acc.2⟩)

/-- One iteration of `smoothPath` on a `PathLite`: read the vertices,
compute the new segments, and replace the vertex set through the setter. -/
def smoothPathStep (s : PathState) (radius : ℕ) (weights : Option (List ℝ)) :
    PathState :=
  (s.readVertices).2.setVertices
    (smoothOnceVerts (s.readVertices).1 radius weights)

/-- From path-lite.js: `smoothPath(path, radius, nIterations, weights)` on
a `PathLite` argument: `nIterations` smoothing iterations. -/
def smoothPath (s : PathState) (radius : ℕ) (nIterations : ℕ)
    (weights : Option (List ℝ)) : PathState :=
  (fun st => smoothPathStep st radius weights)^[nIterations] s

/-- Loop of `removeDupPointsFromPath`: walk `samples` from index `i`,
pushing each sample whose distance to the last pushed sample (`prev`)
exceeds `Number.EPSILON`. -/
def removeDupGo (samples : List Vec) (prev : Vec) (i : ℕ) : List Vec :=
  if h : i < samples.length then
    if jsEps < (samples[i]).dist prev then
      samples[i] :: removeDupGo samples (samples[i]) (i + 1)
    else removeDupGo samples prev (i + 1)
  else []
termination_by samples.length - i

/-- `removeDupPointsFromPath(samples, closed)`: keep each sample strictly
farther than `Number.EPSILON` from the previously kept one; on a closed
path with at least two survivors, pop the last when it lies within
`Number.EPSILON` of the first (the closure seam). -/
def removeDupPointsFromPath (samples : List Vec) (closed : Bool) : List Vec :=
  let nonDup : List Vec :=
    match samples with
    | [] => []
    | s :: _ => s :: removeDupGo samples s 1
  if closed = true ∧ 2 ≤ nonDup.length ∧
      (nonDup.headD vec0).dist (nonDup.getLastD vec0) ≤ jsEps then
    nonDup.dropLast
  else nonDup

/-- Loop of `removeColinearPointsFromPath` (the `samples.forEach`), from
index `i`: endpoints of an open path are pushed unconditionally; every
other sample is pushed exactly when the unit direction in from the
previous sample and the unit direction out to the next sample (neighbors
taken with wrapped `at` indexing) have a dot product farther than
`Number.EPSILON` from 1. -/
def removeColinearGo (samples : List Vec) (closed : Bool) (i : ℕ) : List Vec :=
  if h : i < samples.length then
    if closed = false ∧ (i = 0 ∨ i = samples.length - 1) then
      (samples[i]).copyPat none :: removeColinearGo samples closed (i + 1)
    else
      let loDir := ((samples[i]).sub (jsAtD samples ((i : ℤ) - 1) vec0)).norm
      let hiDir := ((jsAtD samples ((i : ℤ) + 1) vec0).sub (samples[i])).norm
      if jsEps < |loDir.dot hiDir - 1| then
        (samples[i]).copyPat none :: removeColinearGo samples closed (i + 1)
      else removeColinearGo samples closed (i + 1)
  else []
termination_by samples.length - i

/-- `removeColinearPointsFromPath(samples, closed)`. -/
def removeColinearPointsFromPath (samples : List Vec) (closed : Bool) : List Vec :=
  removeColinearGo samples closed 0

/-- `PathLite._removeDuplicateVertices()`: read `this.vertices` (the
getter cleans the cache first), apply `removeDupPointsFromPath` with the
current closed flag, and write the result back through the vertices
setter. -/
def PathState.removeDuplicateVertices (s : PathState) : PathState :=
  ((s.readVertices).2).setVertices
    (removeDupPointsFromPath ((s.readVertices).1) s.closed)

/-- `PathLite._removeColinearVertices()`: same shape with
`removeColinearPointsFromPath`. -/
def PathState.removeColinearVertices (s : PathState) : PathState :=
  ((s.readVertices).2).setVertices
    (removeColinearPointsFromPath ((s.readVertices).1) s.closed)

/-- `PathLite.reduce()`: remove duplicate neighboring vertices, then
colinear interior vertices. -/
def PathState.reduce (s : PathState) : PathState :=
  s.removeDuplicateVertices.removeColinearVertices

/-- The observable effect of one `reduce()` on the vertex list a caller
reads back: both removal passes, each one reading through the getter
(clean) and writing through the setter (marks dirty, so the next read
cleans again). -/
def reduceVertsObs (useZ closed : Bool) (xs : List Vec) : List Vec :=
  cleanVerts useZ
    (removeColinearPointsFromPath
      (cleanVerts useZ (removeDupPointsFromPath xs closed)) closed)

/-- From helpers: `wrappedAverage(a, r)` without weights: wrap each value
into `[0, r)`, rescale to angles in `[0, 2π)`, average the unit phasors
(the source divides both component sums by `a.length` twice when no
weights are given), take `atan2` of the averaged components (`noNAN`
guarding the NaN case), wrap the result into `[0, 2π)` and scale back to
the range `r`. -/
def wrappedAverage (a : List ℝ) (r : ℝ) : ℝ :=
  wrap (noNAN (atan2
    (listSum (a.map (fun i => Real.sin (wrap i r / r * 2 * π) * 1)) / a.length / a.length)
    (listSum (a.map (fun i => Real.cos (wrap i r / r * 2 * π) * 1)) / a.length / a.length)))
    (2 * π) / 2 / π * r

/-- The `while (samples.length > 1)` loop of `calcConvexHull`, carrying the
hull built so far: pick the reference direction from the wrapped average
of the headings to all remaining samples, score every remaining sample by
(signed angle against the reference, distance), take `argAt` of the
comparator preferring larger angle (ties beyond `Number.EPSILON` broken by
larger distance), push that sample and drop everything up to and including
it.  After the loop the single remaining sample, if any, is pushed. -/
def calcConvexHullGo (hull : List Vec) (samples : List Vec) : List Vec :=
  if h : 1 < samples.length then
    let dirRef := Vec.fromAngle (wrappedAverage
      (samples.map (fun sample => ((sample.sub (jsAtD hull (-1) vec0)).heading))) (2 * π))
    let items := samples.map (fun sample =>
      (dirRef.angleBetween ((sample.sub (jsAtD hull (-1) vec0)).norm),
        (sample.sub (jsAtD hull (-1) vec0)).mag))
    let am := (argAt items (fun a b =>
      if jsEps < |b.1 - a.1| then b.1 - a.1 else b.2 - a.2)).getD 0
    calcConvexHullGo (hull ++ [samples.getD am vec0]) (samples.drop (am + 1))
  else if 0 < samples.length then hull ++ [samples.headD vec0]
  else hull
termination_by samples.length
decreasing_by simp; omega

/-- `calcConvexHull(samplesRaw)` for vector samples: seed the hull with
the first sample (`samples.splice(0, 1)`) and run the walker loop. -/
def calcConvexHull (samplesRaw : List Vec) : List Vec :=
  match samplesRaw with
  | [] => []
  | s :: rest => calcConvexHullGo [s] rest

/-- Claim-side predicate, following the spec wording: the points form a
convex polygon traversed counter-clockwise in the mathematical convention
(y axis up): every pair of consecutive edges turns left, i.e. has a
positive z cross component (with wrap-around indexing). -/
def IsConvexCCWMath (pts : List Vec) : Prop :=
  3 ≤ pts.length ∧ ∀ i < pts.length,
    0 < (((jsAtD pts ((i : ℤ) + 1) vec0).sub (jsAtD pts (i : ℤ) vec0)).cross
      ((jsAtD pts ((i : ℤ) + 2) vec0).sub (jsAtD pts ((i : ℤ) + 1) vec0))).z

/-- Claim-side predicate: convex and counter-clockwise in the screen
convention (y axis down), i.e. every consecutive edge pair has a negative
z cross component — clockwise in the mathematical convention. -/
def IsConvexCCWScreen (pts : List Vec) : Prop :=
  3 ≤ pts.length ∧ ∀ i < pts.length,
    (((jsAtD pts ((i : ℤ) + 1) vec0).sub (jsAtD pts (i : ℤ) vec0)).cross
      ((jsAtD pts ((i : ℤ) + 2) vec0).sub (jsAtD pts ((i : ℤ) + 1) vec0))).z < 0

-- ===================== THEOREMS =====================

/-- C2: the spec claims `segmentsIntersect` returns 0 whenever the two
segments share exactly one endpoint and otherwise do not overlap.  The code
(contradicting its own return-value comment "0 = intersection by end
point") returns 1 for the perpendicular segments (0,0)–(1,0) and
(1,0)–(1,1), which share exactly the endpoint (1,0): the general
orientation case fires before the endpoint special cases are examined. -/
theorem segmentsIntersect_shared_endpoint_is_one :
    segmentsIntersect ⟨0, 0, 0⟩ ⟨1, 0, 0⟩ ⟨1, 0, 0⟩ ⟨1, 1, 0⟩ = 1 := by
  norm_num [segmentsIntersect, tripletOrientation]

/-- C3: the spec claims `getNearestLocation` returns null on every path
with zero segments, in particular an empty path, "without failing".  For
an empty path with the default `closed = false`, `_nSegments` is -1 and
`range(-1)` evaluates `Array(-1).fill(0)`, which throws a `RangeError`
instead of returning null: the code crashes on the very input the spec
singles out. -/
theorem getNearestLocation_empty_open_throws :
    ∀ pt : Vec, getNearestLocation [] false none pt = none := by
  intro pt
  simp [getNearestLocation, nSegments, jsRange]

theorem listSum_eq_sum (l : List ℝ) : listSum l = l.sum := by
  rw [listSum, List.sum_eq_foldl]

theorem cumAux_length (p : ℝ) (l : List ℝ) : (cumAux p l).length = l.length := by
  induction l generalizing p with
  | nil => simp [cumAux]
  | cons c t ih => simp [cumAux, ih]

theorem cumAux_getD (p : ℝ) (l : List ℝ) (i : ℕ) (h : i < l.length) :
    (cumAux p l).getD i 0 = p + (l.take (i + 1)).sum := by
  induction l generalizing p i with
  | nil => simp at h
  | cons c t ih =>
    cases i with
    | zero => simp [cumAux]
    | succ k =>
      simp only [cumAux, List.getD_cons_succ, List.take_succ_cons, List.sum_cons]
      rw [ih (p + c) k (by simpa using h)]
      ring

theorem calcSegLengths_nonneg (verts : List Vec) (closed : Bool) (metric : Option Pat) :
    ∀ r ∈ calcSegLengths verts closed metric, 0 ≤ r := by
  intro r hr
  rw [calcSegLengths, List.mapIdx_eq_enum_map] at hr
  obtain ⟨⟨i, s⟩, _, rfl⟩ := List.mem_map.1 hr
  exact Real.sqrt_nonneg _

theorem calcSegLengths_length (verts : List Vec) (closed : Bool) (metric : Option Pat) :
    (calcSegLengths verts closed metric).length =
      if closed then verts.length else verts.length - 1 := by
  cases closed <;> simp [calcSegLengths]

theorem pathOffsets_length (verts : List Vec) (closed : Bool) (metric : Option Pat)
    (h : 1 ≤ nSegments verts closed) :
    (pathOffsets verts closed metric).length = verts.length := by
  have hl := calcSegLengths_length verts closed metric
  rw [pathOffsets, List.length_take, List.length_cons, pathCumulative,
    cumulativeSum, cumAux_length, hl]
  cases closed <;> simp [nSegments] at h ⊢
  omega

theorem pathOffsets_getD (verts : List Vec) (closed : Bool) (metric : Option Pat)
    (h : 1 ≤ nSegments verts closed) (i : ℕ) (hi : i < verts.length) :
    (pathOffsets verts closed metric).getD i 0 =
      ((calcSegLengths verts closed metric).take i).sum := by
  have hl := calcSegLengths_length verts closed metric
  have hseg : ∀ k, k + 1 = i → k < (calcSegLengths verts closed metric).length := by
    intro k hk
    rw [hl]
    cases closed <;> simp [nSegments] at h ⊢ <;> omega
  rw [pathOffsets, List.getD_eq_getD_get?, List.get?_eq_getElem?,
    List.getElem?_take_of_lt hi]
  cases i with
  | zero => simp
  | succ k =>
    have hk := hseg k rfl
    rw [show ((0 : ℝ) :: pathCumulative verts closed metric)[k + 1]? =
        (pathCumulative verts closed metric)[k]? by simp]
    rw [pathCumulative, cumulativeSum]
    have := cumAux_getD 0 (calcSegLengths verts closed metric) k hk
    rw [List.getD_eq_getD_get?, List.get?_eq_getElem?] at this
    rw [this]
    have htk : (calcSegLengths verts closed metric).take (k + 1) =
        (calcSegLengths verts closed metric).take (k + 1) := rfl
    simp

/-- C5: for every path with at least one segment, `offsets` starts at 0,
consecutive entries differ by exactly the corresponding segment length,
the table is monotonically non-decreasing, the last entry (plus the last
segment length when closed) equals the total length, and for a closed
path the wraparound segment from the last vertex back to the first is
included as the last entry of the segment-length list. -/
theorem offsets_invariants (verts : List Vec) (closed : Bool) (metric : Option Pat)
    (h : 1 ≤ nSegments verts closed) :
    (pathOffsets verts closed metric).head? = some 0 ∧
    (∀ i, i + 1 < (pathOffsets verts closed metric).length →
      (pathOffsets verts closed metric).getD (i + 1) 0 -
        (pathOffsets verts closed metric).getD i 0 =
        (calcSegLengths verts closed metric).getD i 0) ∧
    (∀ i j, i ≤ j → j < (pathOffsets verts closed metric).length →
      (pathOffsets verts closed metric).getD i 0 ≤
        (pathOffsets verts closed metric).getD j 0) ∧
    (closed = true →
      (pathOffsets verts closed metric).getD (verts.length - 1) 0 +
        (calcSegLengths verts closed metric).getD (verts.length - 1) 0 =
        calcPathLength verts closed metric) ∧
    (closed = false →
      (pathOffsets verts closed metric).getD (verts.length - 1) 0 =
        calcPathLength verts closed metric) ∧
    (closed = true →
      (calcSegLengths verts closed metric).length = verts.length ∧
      (calcSegLengths verts closed metric).getD (verts.length - 1) 0 =
        (verts.getD (verts.length - 1) vec0).distP (verts.getD 0 vec0) metric) := by
  have hlen := pathOffsets_length verts closed metric h
  have hsl := calcSegLengths_length verts closed metric
  have hn : 1 ≤ verts.length := by
    cases closed <;> simp [nSegments] at h <;> omega
  refine ⟨?_, ?_, ?_, ?_, ?_, ?_⟩
  · -- head is 0
    obtain ⟨m, hm⟩ : ∃ m, verts.length = m + 1 := ⟨verts.length - 1, by omega⟩
    rw [pathOffsets, hm, List.take_succ_cons]
    rfl
  · -- consecutive differences are the segment lengths
    intro i hilen
    rw [hlen] at hilen
    have hiseg : i < (calcSegLengths verts closed metric).length := by
      rw [hsl]; cases closed <;> simp [nSegments] at h ⊢ <;> omega
    rw [pathOffsets_getD verts closed metric h (i + 1) (by omega),
      pathOffsets_getD verts closed metric h i (by omega),
      List.sum_take_succ _ _ hiseg, List.getD_eq_getElem _ _ hiseg]
    ring
  · -- monotone
    intro i j hij hjlen
    rw [hlen] at hjlen
    rw [pathOffsets_getD verts closed metric h i (by omega),
      pathOffsets_getD verts closed metric h j (by omega)]
    have : (calcSegLengths verts closed metric).take j =
        (calcSegLengths verts closed metric).take i ++
          (((calcSegLengths verts closed metric).drop i).take (j - i)) := by
      rw [← List.take_add]
      congr 1
      omega
    rw [this, List.sum_append]
    have : 0 ≤ (((calcSegLengths verts closed metric).drop i).take (j - i)).sum := by
      apply List.sum_nonneg
      intro x hx
      exact calcSegLengths_nonneg verts closed metric x
        (List.drop_subset _ _ (List.take_subset _ _ hx))
    linarith
  · -- closed: last offset plus last segment length is the total
    intro hc
    subst hc
    have hns : verts.length - 1 < (calcSegLengths verts true metric).length := by
      rw [hsl]; simp; omega
    rw [pathOffsets_getD verts true metric h (verts.length - 1) (by omega),
      List.getD_eq_getElem _ _ hns, ← List.sum_take_succ _ _ hns,
      show verts.length - 1 + 1 = verts.length by omega,
      calcPathLength, listSum_eq_sum]
    congr 1
    exact List.take_of_length_le (by rw [hsl]; simp)
  · -- open: last offset is the total
    intro hc
    subst hc
    rw [pathOffsets_getD verts false metric h (verts.length - 1) (by omega),
      calcPathLength, listSum_eq_sum]
    congr 1
    exact List.take_of_length_le (by rw [hsl]; simp)
  · -- closed: the wraparound segment is included
    intro hc
    subst hc
    have hlenseg : (calcSegLengths verts true metric).length = verts.length := by
      rw [hsl]; simp
    refine ⟨hlenseg, ?_⟩
    have hns : verts.length - 1 < (calcSegLengths verts true metric).length := by
      omega
    have hv : verts.length - 1 < verts.length := by omega
    rw [List.getD_eq_getElem _ _ hns]
    have hmap : calcSegLengths verts true metric = verts.mapIdx
        (fun i s => s.distP (jsAtD verts ((i : ℤ) + 1) vec0) metric) := by
      simp [calcSegLengths]
    have hwrap : jsAtD verts (((verts.length - 1 : ℕ) : ℤ) + 1) vec0 =
        verts.getD 0 vec0 := by
      have hcast : ((verts.length - 1 : ℕ) : ℤ) + 1 = (verts.length : ℤ) := by omega
      have hne : verts.length ≠ 0 := by omega
      rw [jsAtD, jsAt, if_neg hne, hcast, Int.emod_self]
      simp [List.getD_eq_getD_get?]
    simp only [hmap, List.mapIdx_eq_enum_map, List.getElem_map, List.getElem_enum,
      Function.uncurry_apply_pair]
    rw [hwrap]
    congr 1
    rw [List.getD_eq_getElem _ _ hv]

theorem cleanVertices_of_clean (s : PathState) (h : s.verticesDirty = false) :
    s.cleanVertices = s := by
  simp [PathState.cleanVertices, h]

theorem readVertices_spec (s : PathState) (h : WF s) :
    s.readVertices.1 = specVertices s := by
  obtain ⟨h1, -⟩ := h
  rw [PathState.readVertices, PathState.cleanVertices]
  by_cases hd : s.verticesDirty
  · simp [hd, specVertices]
  · simp only [Bool.not_eq_true] at hd
    simp [hd, h1 hd, specVertices]

theorem cleanLength_spec (s : PathState) (h : WF s) :
    s.cleanLength.verticesCache = specVertices s ∧
    s.cleanLength.verticesDirty = false ∧
    s.cleanLength.closed = s.closed ∧
    s.cleanLength.lengthMetric = s.lengthMetric ∧
    s.cleanLength.lengthCache = specLength s ∧
    s.cleanLength.lengthCumulative =
      cumulativeSum (calcSegLengths (specVertices s) s.closed s.lengthMetric) := by
  obtain ⟨h1, h2⟩ := h
  rw [PathState.cleanLength]
  by_cases hd : s.lengthDirty
  · have hv : s.cleanVertices.verticesCache = specVertices s := by
      rw [PathState.cleanVertices]
      by_cases hvd : s.verticesDirty
      · simp [hvd, specVertices]
      · simp only [Bool.not_eq_true] at hvd
        simp [hvd, h1 hvd, specVertices]
    have hvd' : s.cleanVertices.verticesDirty = false := by
      rw [PathState.cleanVertices]
      by_cases hvd : s.verticesDirty <;> simp_all
    have hc : s.cleanVertices.closed = s.closed := by
      rw [PathState.cleanVertices]
      by_cases hvd : s.verticesDirty <;> simp_all
    have hm : s.cleanVertices.lengthMetric = s.lengthMetric := by
      rw [PathState.cleanVertices]
      by_cases hvd : s.verticesDirty <;> simp_all
    simp [hd, hv, hvd', hc, hm, specLength, calcPathLength]
  · simp only [Bool.not_eq_true] at hd
    obtain ⟨hvd, hsegs, hcache, hcum⟩ := h2 hd
    simp [hd, h1 hvd, hvd, hsegs, hcache, hcum, specVertices, specLength,
      calcPathLength]

theorem readLength_spec (s : PathState) (h : WF s) :
    s.readLength.1 = specLength s := by
  rw [PathState.readLength]
  exact (cleanLength_spec s h).2.2.2.2.1

theorem readOffsets_spec (s : PathState) (h : WF s) :
    s.readOffsets.1 = specOffsets s := by
  obtain ⟨hv, hvd, -, -, -, hcum⟩ := cleanLength_spec s h
  rw [PathState.readOffsets, cleanVertices_of_clean _ hvd, hv, hcum]
  rfl

theorem WF_setClosed (s : PathState) (b : Bool) (h : WF s) : WF (s.setClosed b) := by
  obtain ⟨h1, -⟩ := h
  exact ⟨fun hd => h1 hd, fun hl => by simp [PathState.setClosed] at hl⟩

theorem WF_setLengthMetric (s : PathState) (m : Option Pat) (h : WF s) :
    WF (s.setLengthMetric m) := by
  obtain ⟨h1, -⟩ := h
  exact ⟨fun hd => h1 hd, fun hl => by simp [PathState.setLengthMetric] at hl⟩

theorem WF_setVertices (s : PathState) (xs : List Vec) : WF (s.setVertices xs) :=
  ⟨fun hd => by simp [PathState.setVertices] at hd,
   fun hl => by simp [PathState.setVertices] at hl⟩

/-- C1: after any change through the `vertices`, `closed` or `lengthMetric`
setter, the next read of `length`, `offsets` or `vertices` returns exactly
the value recomputed from the current stored vertex set, closed flag and
metric — never a cache computed against the prior fields.  `WF` is the
reachable-state invariant relating clean caches to the stored fields. -/
theorem cache_invalidation_fresh_reads (s : PathState) (h : WF s)
    (b : Bool) (m : Option Pat) (xs : List Vec) :
    (s.setClosed b).readLength.1 = specLength (s.setClosed b) ∧
    (s.setClosed b).readOffsets.1 = specOffsets (s.setClosed b) ∧
    (s.setClosed b).readVertices.1 = specVertices (s.setClosed b) ∧
    (s.setLengthMetric m).readLength.1 = specLength (s.setLengthMetric m) ∧
    (s.setLengthMetric m).readOffsets.1 = specOffsets (s.setLengthMetric m) ∧
    (s.setLengthMetric m).readVertices.1 = specVertices (s.setLengthMetric m) ∧
    (s.setVertices xs).readLength.1 = specLength (s.setVertices xs) ∧
    (s.setVertices xs).readOffsets.1 = specOffsets (s.setVertices xs) ∧
    (s.setVertices xs).readVertices.1 = specVertices (s.setVertices xs) :=
  ⟨readLength_spec _ (WF_setClosed s b h),
   readOffsets_spec _ (WF_setClosed s b h),
   readVertices_spec _ (WF_setClosed s b h),
   readLength_spec _ (WF_setLengthMetric s m h),
   readOffsets_spec _ (WF_setLengthMetric s m h),
   readVertices_spec _ (WF_setLengthMetric s m h),
   readLength_spec _ (WF_setVertices s xs),
   readOffsets_spec _ (WF_setVertices s xs),
   readVertices_spec _ (WF_setVertices s xs)⟩

/-- Witness for `cache_invalidation_fresh_reads`: the freshly constructed
empty path satisfies `WF` (both dirty flags set), and a `length` read
after `closed := true` recomputes from the current fields. -/
theorem cache_invalidation_fresh_reads_witness :
    WF (PathState.init []) ∧
    ((PathState.init []).setClosed true).readLength.1 =
      specLength ((PathState.init []).setClosed true) :=
  ⟨⟨fun hd => by simp [PathState.init, PathState.setVertices] at hd,
    fun hl => by simp [PathState.init, PathState.setVertices] at hl⟩,
   (cache_invalidation_fresh_reads (PathState.init [])
      ⟨fun hd => by simp [PathState.init, PathState.setVertices] at hd,
       fun hl => by simp [PathState.init, PathState.setVertices] at hl⟩
      true none []).1⟩

theorem Vec.copyPat_none (v : Vec) : v.copyPat none = v := rfl

theorem readVertices_setVertices (s : PathState) (xs : List Vec) :
    ((s.setVertices xs).readVertices).1 = cleanVerts s.useZ xs := by
  rw [PathState.readVertices, PathState.setVertices, PathState.cleanVertices]
  simp only [if_pos rfl]
  simp [cleanVerts, cleanOne, Vec.copyPat_none, List.map_map]

theorem jsAtD_of_nonneg_lt {α : Type} (l : List α) (i : ℤ) (d : α)
    (h0 : 0 ≤ i) (h : i < l.length) : jsAtD l i d = l.getD i.toNat d := by
  have hne : l.length ≠ 0 := by omega
  rw [jsAtD, jsAt, if_neg hne, Int.emod_eq_of_lt h0 (by exact_mod_cast h),
    List.getD_eq_getD_get?]

theorem jsAtD_neg_one {α : Type} (l : List α) (d : α) (h : l.length ≠ 0) :
    jsAtD l (-1) d = l.getD (l.length - 1) d := by
  have hmod : (-1 : ℤ) % (l.length : ℤ) = (l.length : ℤ) - 1 := by
    have h1 : ((l.length : ℤ) - 1) % (l.length : ℤ) = (l.length : ℤ) - 1 :=
      Int.emod_eq_of_lt (by omega) (by omega)
    calc (-1 : ℤ) % (l.length : ℤ)
        = ((-1) + (l.length : ℤ) * 1) % (l.length : ℤ) :=
          (Int.add_mul_emod_self_left (-1) (l.length : ℤ) 1).symm
      _ = ((l.length : ℤ) - 1) % (l.length : ℤ) := by ring_nf
      _ = (l.length : ℤ) - 1 := h1
  have htn : ((l.length : ℤ) - 1).toNat = l.length - 1 := by omega
  rw [jsAtD, jsAt, if_neg h, hmod, htn, List.getD_eq_getD_get?]

/-- C9 counterexample: the claim says mutating a vector obtained from the
`vertices` getter never changes the path's subsequently observed state.
But the getter returns the internal cache array itself: after
constructing a path on the single vertex (1,2), reading `vertices`, and
mutating entry 0 of the returned array to (9,9,9), the next `vertices`
read observes (9,9,9) although no setter was ever called. -/
theorem getter_alias_mutation_changes_reads :
    ((mutateGottenVertex ((PathState.init [⟨1,2,0⟩]).readVertices).2 0
        ⟨9,9,9⟩).readVertices).1 = [(⟨9,9,9⟩ : Vec)] ∧
    ((((PathState.init [⟨1,2,0⟩]).readVertices).2).readVertices).1 =
      [(⟨1,2,0⟩ : Vec)] ∧
    [(⟨9,9,9⟩ : Vec)] ≠ [(⟨1,2,0⟩ : Vec)] := by
  refine ⟨?_, ?_, ?_⟩
  · simp [PathState.init, PathState.setVertices, PathState.readVertices,
      PathState.cleanVertices, mutateGottenVertex, cleanVerts, cleanOne, Vec.copyPat,
      patXY, patComp]
  · simp [PathState.init, PathState.setVertices, PathState.readVertices,
      PathState.cleanVertices, cleanVerts, cleanOne, Vec.copyPat, patXY, patComp]
  · simp only [ne_eq, List.cons.injEq, Vec.mk.injEq, and_true, not_and]
    norm_num

/-- C9 amended: vectors passed to the `vertices` setter are defensively
copied, so a read after the setter is a pure function of the vector
values handed in (later caller-side mutation of the passed list cannot be
observed); but the getter returns the internal cache array without
copying, so a caller mutation through the gotten array is exactly a cache
update and is returned verbatim by the next read while the vertex cache
stays clean. -/
theorem vertices_copied_on_write_aliased_on_read :
    (∀ (s : PathState) (j : ℕ) (v : Vec), s.verticesDirty = false →
      ((mutateGottenVertex s j v).readVertices).1 = s.verticesCache.set j v) ∧
    (∀ (s : PathState) (xs : List Vec),
      ((s.setVertices xs).readVertices).1 = cleanVerts s.useZ xs) := by
  constructor
  · intro s j v hd
    rw [PathState.readVertices, cleanVertices_of_clean]
    · rfl
    · simpa [mutateGottenVertex] using hd
  · exact readVertices_setVertices

/-- Witness for `vertices_copied_on_write_aliased_on_read`: applied at the
clean single-vertex path, mutating the gotten vector to (9,9,9). -/
theorem vertices_copied_on_write_aliased_on_read_witness :
    (((PathState.init [⟨1,2,0⟩]).readVertices).2.verticesDirty = false) ∧
    ((mutateGottenVertex ((PathState.init [⟨1,2,0⟩]).readVertices).2 0
        ⟨9,9,9⟩).readVertices).1 =
      ((PathState.init [⟨1,2,0⟩]).readVertices).2.verticesCache.set 0 ⟨9,9,9⟩ :=
  ⟨by simp [PathState.init, PathState.setVertices, PathState.readVertices,
      PathState.cleanVertices],
   vertices_copied_on_write_aliased_on_read.1
     ((PathState.init [⟨1,2,0⟩]).readVertices).2 0 ⟨9,9,9⟩
     (by simp [PathState.init, PathState.setVertices, PathState.readVertices,
       PathState.cleanVertices])⟩

theorem logistic_one : logistic 1 = 1 := by
  rw [logistic, mapValue]
  norm_num [clamp]

theorem logistic_half : logistic (1 / 2) = 1 / 2 := by
  rw [logistic, mapValue]
  norm_num [clamp]
  rw [show π * (1 / 2 : ℝ) = π / 2 by ring, Real.cos_pi_div_two]
  norm_num

theorem smoothIndexOffsets_one : smoothIndexOffsets 1 = [0, -1, 1] := by
  rw [smoothIndexOffsets]
  rfl

theorem smoothWeights_one : smoothWeights 1 = [1, 1/2, 1/2] := by
  rw [smoothWeights, smoothIndexOffsets_one]
  simp only [List.map_cons, List.map_nil, Int.cast_zero, Int.cast_neg, Int.cast_one,
    Nat.cast_one]
  rw [show (1 : ℝ) - |(0 : ℝ) / (1 + 1)| = 1 by norm_num,
    show (1 : ℝ) - |(-1 : ℝ) / (1 + 1)| = 1 / 2 by
      rw [show ((-1 : ℝ)) / (1 + 1) = -(1 / 2) by norm_num, abs_neg,
        abs_of_nonneg (by norm_num : (0 : ℝ) ≤ 1 / 2)]
      norm_num,
    show (1 : ℝ) - |(1 : ℝ) / (1 + 1)| = 1 / 2 by
      rw [abs_of_nonneg (by norm_num : (0 : ℝ) ≤ (1 : ℝ) / (1 + 1))]
      norm_num,
    logistic_one, logistic_half]

theorem readVertices_setClosed (s : PathState) (b : Bool) :
    ((s.setClosed b).readVertices).1 = (s.readVertices).1 := by
  rw [PathState.readVertices, PathState.readVertices, PathState.cleanVertices,
    PathState.cleanVertices]
  by_cases hd : s.verticesDirty <;> simp [PathState.setClosed, hd]

/-- C10: `smoothPath` selects each vertex's neighbours with the circular
`Array.prototype.at`, regardless of the path's closed flag.  For an open
path with at least two vertices, the first smoothed vertex (radius 1, no
user weights) is the logistic-weighted average of the first vertex, the
LAST vertex of the list (left neighbour through the wraparound `at(-1)`),
and the second vertex; and flipping the closed flag never changes the
smoothed vertices. -/
theorem smooth_open_path_wraps_endpoint (s : PathState) (h : WF s)
    (hclosed : s.closed = false) (hn : 2 ≤ (s.readVertices).1.length) :
    (smoothOnceVerts (s.readVertices).1 1 none).head? =
      some ⟨((s.readVertices).1.getD 0 vec0).x / 2 +
              ((s.readVertices).1.getD ((s.readVertices).1.length - 1) vec0).x / 4 +
              ((s.readVertices).1.getD 1 vec0).x / 4,
            ((s.readVertices).1.getD 0 vec0).y / 2 +
              ((s.readVertices).1.getD ((s.readVertices).1.length - 1) vec0).y / 4 +
              ((s.readVertices).1.getD 1 vec0).y / 4,
            ((s.readVertices).1.getD 0 vec0).z / 2 +
              ((s.readVertices).1.getD ((s.readVertices).1.length - 1) vec0).z / 4 +
              ((s.readVertices).1.getD 1 vec0).z / 4⟩ ∧
    (∀ b : Bool, ((smoothPathStep (s.setClosed b) 1 none).readVertices).1 =
      ((smoothPathStep s 1 none).readVertices).1) := by
  constructor
  · set vs := (s.readVertices).1 with hvs
    obtain ⟨m, hm⟩ : ∃ m, vs.length = m + 2 := ⟨vs.length - 2, by omega⟩
    rw [smoothOnceVerts, hm, show m + 2 = (m + 1) + 1 from rfl,
      List.range_succ_eq_map (m + 1), List.map_cons, List.head?_cons]
    have hr3 : List.range (1 + 2 * 1) = [0, 1, 2] := rfl
    have ha0 : jsAtD vs ((0 : ℕ) + (0 : ℤ)) vec0 = vs.getD 0 vec0 := by
      rw [show ((0 : ℕ) : ℤ) + (0 : ℤ) = (0 : ℤ) by norm_num]
      rw [jsAtD_of_nonneg_lt vs 0 vec0 le_rfl (by exact_mod_cast (by omega : 0 < vs.length))]
      rfl
    have ha1 : jsAtD vs ((0 : ℕ) + (-1 : ℤ)) vec0 = vs.getD (vs.length - 1) vec0 := by
      rw [show ((0 : ℕ) : ℤ) + (-1 : ℤ) = (-1 : ℤ) by norm_num]
      exact jsAtD_neg_one vs vec0 (by omega)
    have ha2 : jsAtD vs ((0 : ℕ) + (1 : ℤ)) vec0 = vs.getD 1 vec0 := by
      rw [show ((0 : ℕ) : ℤ) + (1 : ℤ) = (1 : ℤ) by norm_num]
      rw [jsAtD_of_nonneg_lt vs 1 vec0 (by norm_num)
        (by exact_mod_cast (by omega : 1 < vs.length))]
      rfl
    simp only [smoothIndexOffsets_one, smoothWeights_one, hr3, List.foldl_cons,
      List.foldl_nil, List.getD_cons_zero, List.getD_cons_succ, ha0, ha1, ha2]
    rw [safeDivide, safeDivide, safeDivide]
    have hden : ¬((0 : ℝ) + 1 * 1 + 1 / 2 * 1 + 1 / 2 * 1 < jsEps) := by
      rw [jsEps]
      norm_num
    rw [if_neg hden, if_neg hden, if_neg hden, hm]
    simp only [Option.some.injEq, Vec.mk.injEq, vec0]
    refine ⟨?_, ?_, ?_⟩ <;> ring
  · intro b
    rw [smoothPathStep, smoothPathStep, readVertices_setClosed]
    have huz : ((s.setClosed b).readVertices).2.useZ = (s.readVertices).2.useZ := by
      rw [PathState.readVertices, PathState.readVertices, PathState.cleanVertices,
        PathState.cleanVertices]
      by_cases hd : s.verticesDirty <;> simp [PathState.setClosed, hd]
    rw [readVertices_setVertices, readVertices_setVertices, huz]

/-- Witness for `smooth_open_path_wraps_endpoint` at the freshly built
open 3-vertex path (0,0), (10,0), (20,0). -/
theorem smooth_open_path_wraps_endpoint_witness :
    WF (PathState.init [⟨0,0,0⟩, ⟨10,0,0⟩, ⟨20,0,0⟩]) ∧
    (PathState.init [⟨0,0,0⟩, ⟨10,0,0⟩, ⟨20,0,0⟩]).closed = false ∧
    2 ≤ ((PathState.init [⟨0,0,0⟩, ⟨10,0,0⟩, ⟨20,0,0⟩]).readVertices).1.length ∧
    (∀ b : Bool,
      ((smoothPathStep ((PathState.init [⟨0,0,0⟩, ⟨10,0,0⟩, ⟨20,0,0⟩]).setClosed b)
          1 none).readVertices).1 =
      ((smoothPathStep (PathState.init [⟨0,0,0⟩, ⟨10,0,0⟩, ⟨20,0,0⟩])
          1 none).readVertices).1) :=
  ⟨⟨fun hd => by simp [PathState.init, PathState.setVertices] at hd,
    fun hl => by simp [PathState.init, PathState.setVertices] at hl⟩,
   rfl,
   by simp [PathState.init, PathState.setVertices, PathState.readVertices,
     PathState.cleanVertices, cleanVerts, cleanOne],
   (smooth_open_path_wraps_endpoint (PathState.init [⟨0,0,0⟩, ⟨10,0,0⟩, ⟨20,0,0⟩])
      ⟨fun hd => by simp [PathState.init, PathState.setVertices] at hd,
       fun hl => by simp [PathState.init, PathState.setVertices] at hl⟩
      rfl
      (by simp [PathState.init, PathState.setVertices, PathState.readVertices,
        PathState.cleanVertices, cleanVerts, cleanOne])).2⟩

theorem Vec.magSq_nonneg (a : Vec) : 0 ≤ a.magSq := by
  rw [Vec.magSq]
  nlinarith [mul_self_nonneg a.x, mul_self_nonneg a.y, mul_self_nonneg a.z]

theorem Vec.dist_def (p q : Vec) : p.dist q = (q.sub p).mag := rfl

theorem dist_le_of_magSq (p X Y : Vec) (h : (X.sub p).magSq ≤ (Y.sub p).magSq) :
    p.dist X ≤ p.dist Y := by
  rw [Vec.dist_def, Vec.dist_def, Vec.mag, Vec.mag]
  exact Real.sqrt_le_sqrt h

theorem Vec.mag_zero_comps (v : Vec) (hv : v.mag = 0) :
    v.x = 0 ∧ v.y = 0 ∧ v.z = 0 := by
  have h2 : v.magSq = 0 :=
    le_antisymm (Real.sqrt_eq_zero'.mp hv) (Vec.magSq_nonneg v)
  rw [Vec.magSq] at h2
  refine ⟨mul_self_eq_zero.mp ?_, mul_self_eq_zero.mp ?_, mul_self_eq_zero.mp ?_⟩
  · nlinarith [mul_self_nonneg v.y, mul_self_nonneg v.z]
  · nlinarith [mul_self_nonneg v.x, mul_self_nonneg v.z]
  · nlinarith [mul_self_nonneg v.x, mul_self_nonneg v.y]

theorem Vec.magSq_pos_of_mag_ne_zero (v : Vec) (hv : v.mag ≠ 0) : 0 < v.magSq := by
  rcases (Vec.magSq_nonneg v).lt_or_eq with h | h
  · exact h
  · exact absurd (by rw [Vec.mag, ← h, Real.sqrt_zero]) hv

/-- With a non-degenerate direction, `project(b, 0)` is the textbook
orthogonal projection `v * (v·w / |v|²)`. -/
theorem project_eq (w v : Vec) (hv : v.mag ≠ 0) :
    w.project v = v.multS ((v.dot w) / v.magSq) := by
  have hm0 : 0 < v.magSq := Vec.magSq_pos_of_mag_ne_zero v hv
  have hs : v.mag ^ 2 = v.magSq := Real.sq_sqrt (Vec.magSq_nonneg v)
  have humagsq : (v.multS (1 / v.mag)).magSq = 1 := by
    have h1 : (v.multS (1 / v.mag)).magSq = v.magSq / v.mag ^ 2 := by
      rw [Vec.magSq, Vec.magSq, Vec.multS]
      field_simp
      exact Or.inl (by ring)
    rw [h1, hs, div_self (ne_of_gt hm0)]
  have humag : (v.multS (1 / v.mag)).mag = 1 := by
    rw [Vec.mag, humagsq, Real.sqrt_one]
  rw [Vec.project, Vec.norm, Vec.normalize, if_neg hv, Vec.magSet, Vec.normalize,
    humag, if_neg one_ne_zero, ← hs]
  ext
  all_goals
    simp only [Vec.multS, Vec.dot]
    field_simp
    exact Or.inl (by ring)

/-- Squared-distance bounds of the orthogonal projection: the foot of the
perpendicular from `w` to the line through the origin along `v` is at
least as close to `w` as both the origin and the point `v`. -/
theorem proj_magSq_bounds (v w : Vec) (hm0 : 0 < v.magSq) :
    ((v.multS ((v.dot w) / v.magSq)).sub w).magSq ≤ w.magSq ∧
    ((v.multS ((v.dot w) / v.magSq)).sub w).magSq ≤ (v.sub w).magSq := by
  have hm' : v.x * v.x + v.y * v.y + v.z * v.z ≠ 0 := by
    have := ne_of_gt hm0
    rwa [Vec.magSq] at this
  have h1 : ((v.multS ((v.dot w) / v.magSq)).sub w).magSq =
      w.magSq - (v.dot w) ^ 2 / v.magSq := by
    rw [Vec.magSq, Vec.magSq, Vec.multS, Vec.sub, Vec.dot, Vec.magSq]
    field_simp
    ring
  have h2 : (v.sub w).magSq = v.magSq - 2 * (v.dot w) + w.magSq := by
    rw [Vec.magSq, Vec.magSq, Vec.magSq, Vec.sub, Vec.dot]
    ring
  constructor
  · rw [h1]
    have : 0 ≤ (v.dot w) ^ 2 / v.magSq := by positivity
    linarith
  · rw [h1, h2]
    have hkey : 0 ≤ (v.magSq - v.dot w) ^ 2 / v.magSq := by positivity
    have hexp : (v.magSq - v.dot w) ^ 2 / v.magSq =
        v.magSq - 2 * (v.dot w) + (v.dot w) ^ 2 / v.magSq := by
      field_simp [ne_of_gt hm0]
      ring
    linarith [hexp ▸ hkey]

/-- Either branch of `queryPointToSegmentOV` returns a distance no larger
than the distance from the query point to either segment endpoint. -/
theorem query_le_endpoints (p a b : Vec) :
    (queryPointToSegmentAB p a b).2 ≤ p.dist a ∧
    (queryPointToSegmentAB p a b).2 ≤ p.dist b := by
  rw [queryPointToSegmentAB, queryPointToSegmentOV]
  have hab : a.add (b.sub a) = b := by
    ext <;> simp [Vec.add, Vec.sub] <;> ring
  by_cases hcond : -jsEps ≤ (p.sub a).dot (b.sub a) ∧
      -jsEps ≤ (p.sub (a.add (b.sub a))).dot ((b.sub a).multS (-1))
  · rw [if_pos hcond]
    dsimp only
    by_cases hv : (b.sub a).mag = 0
    · obtain ⟨hx, hy, hz⟩ := Vec.mag_zero_comps _ hv
      have hproj : ((p.sub a).project (b.sub a)) = ⟨0, 0, 0⟩ := by
        rw [Vec.project, Vec.norm, Vec.normalize, if_pos hv, Vec.magSet,
          Vec.normalize, if_pos hv]
        ext <;> simp [Vec.multS, hx, hy, hz]
      have hba : b = a := by
        have h1 := sub_eq_zero.mp hx
        have h2 := sub_eq_zero.mp hy
        have h3 := sub_eq_zero.mp hz
        exact Vec.ext h1 h2 h3
      rw [hproj]
      have h1 : (⟨0, 0, 0⟩ : Vec).add a = a := by
        ext <;> simp [Vec.add]
      rw [h1, hba]
      exact ⟨le_rfl, le_rfl⟩
    · have hm0 : 0 < (b.sub a).magSq := Vec.magSq_pos_of_mag_ne_zero _ hv
      rw [project_eq _ _ hv]
      have e1 : (((b.sub a).multS (((b.sub a).dot (p.sub a)) / (b.sub a).magSq)).add
          a).sub p =
          ((b.sub a).multS (((b.sub a).dot (p.sub a)) / (b.sub a).magSq)).sub
            (p.sub a) := by
        ext <;> simp [Vec.add, Vec.sub, Vec.multS] <;> ring
      have e2 : (a.sub p).magSq = (p.sub a).magSq := by
        simp [Vec.sub, Vec.magSq]
        ring
      have e3 : (b.sub p) = (b.sub a).sub (p.sub a) := by
        ext <;> simp [Vec.sub]
      constructor
      · apply dist_le_of_magSq
        rw [e1, e2]
        exact (proj_magSq_bounds (b.sub a) (p.sub a) hm0).1
      · apply dist_le_of_magSq
        rw [e1, e3]
        exact (proj_magSq_bounds (b.sub a) (p.sub a) hm0).2
  · rw [if_neg hcond, hab]
    by_cases h2 : p.dist b < p.dist a
    · rw [if_pos h2]
      exact ⟨le_of_lt h2, le_rfl⟩
    · rw [if_neg h2]
      exact ⟨le_rfl, le_of_not_lt h2⟩

theorem cmpDistIndex_le_iff (a b : CurveLoc) :
    cmpDistIndex a b ≤ 0 ↔
      (a.distance < b.distance ∨ (a.distance = b.distance ∧ a.index ≤ b.index)) := by
  rw [cmpDistIndex]
  by_cases h : a.distance = b.distance
  · rw [if_pos h]
    constructor
    · intro h1
      exact Or.inr ⟨h, by exact_mod_cast sub_nonpos.mp h1⟩
    · rintro (h1 | ⟨-, h2⟩)
      · rw [h] at h1
        exact absurd h1 (lt_irrefl _)
      · exact sub_nonpos.mpr (by exact_mod_cast h2)
  · rw [if_neg h]
    constructor
    · intro h1
      rcases lt_or_eq_of_le (sub_nonpos.mp h1) with h2 | h2
      · exact Or.inl h2
      · exact absurd h2 h
    · rintro (h1 | ⟨h2, -⟩)
      · exact sub_nonpos.mpr h1.le
      · exact absurd h2 h

theorem jsSortBy_ne_nil {α : Type} (cmp : α → α → ℝ) (l : List α) (h : l ≠ []) :
    jsSortBy cmp l ≠ [] := by
  intro hc
  have hlen := (List.perm_insertionSort (fun a b => cmp a b ≤ 0) l).length_eq
  rw [jsSortBy] at hc
  rw [hc] at hlen
  simp at hlen
  exact h (List.length_eq_zero.mp hlen.symm)

theorem jsSortBy_head_min (l : List CurveLoc) (cl : CurveLoc)
    (hhead : (jsSortBy cmpDistIndex l).head? = some cl) :
    ∀ y ∈ l, cl.distance ≤ y.distance := by
  haveI instTot : IsTotal CurveLoc (fun a b => cmpDistIndex a b ≤ 0) := ⟨by
    intro a b
    simp only [cmpDistIndex_le_iff]
    rcases lt_trichotomy a.distance b.distance with h | h | h
    · exact Or.inl (Or.inl h)
    · rcases le_total a.index b.index with hi | hi
      · exact Or.inl (Or.inr ⟨h, hi⟩)
      · exact Or.inr (Or.inr ⟨h.symm, hi⟩)
    · exact Or.inr (Or.inl h)⟩
  haveI instTrans : IsTrans CurveLoc (fun a b => cmpDistIndex a b ≤ 0) := ⟨by
    intro a b c hab hbc
    simp only [cmpDistIndex_le_iff] at hab hbc ⊢
    rcases hab with h1 | ⟨h1, h1'⟩ <;> rcases hbc with h2 | ⟨h2, h2'⟩
    · exact Or.inl (h1.trans h2)
    · exact Or.inl (h2 ▸ h1)
    · exact Or.inl (by rw [h1]; exact h2)
    · exact Or.inr ⟨h1.trans h2, h1'.trans h2'⟩⟩
  intro y hy
  have hmem : y ∈ jsSortBy cmpDistIndex l :=
    ((List.perm_insertionSort (fun a b => cmpDistIndex a b ≤ 0) l).mem_iff).mpr hy
  have hsorted : List.Sorted (fun a b => cmpDistIndex a b ≤ 0)
      (jsSortBy cmpDistIndex l) :=
    List.sorted_insertionSort (fun a b => cmpDistIndex a b ≤ 0) l
  cases hsort : jsSortBy cmpDistIndex l with
  | nil => rw [hsort] at hhead; simp at hhead
  | cons h0 t =>
    rw [hsort] at hhead hmem hsorted
    have hcl : h0 = cl := by simpa using hhead
    subst hcl
    rcases List.mem_cons.mp hmem with rfl | hyt
    · exact le_rfl
    · have hrel := List.rel_of_sorted_cons hsorted y hyt
      rcases (cmpDistIndex_le_iff _ _).mp hrel with h | ⟨h, -⟩
      · exact h.le
      · exact h.le

/-- C7: for every path with at least one segment and every query point,
the distance of the location returned by `getNearestLocation` is at most
the distance from the query point to every vertex of the path. -/
theorem nearest_location_min_distance (verts : List Vec) (closed : Bool)
    (metric : Option Pat) (point : Vec) (h : 1 ≤ nSegments verts closed) :
    ∃ cl : CurveLoc, getNearestLocation verts closed metric point = some (some cl) ∧
      ∀ v ∈ verts, cl.distance ≤ point.dist v := by
  have hr : jsRange (nSegments verts closed) =
      some (List.range (nSegments verts closed).toNat) := by
    rw [jsRange, if_neg (by omega)]
  have hN1 : 1 ≤ (nSegments verts closed).toNat := by omega
  unfold getNearestLocation
  rw [hr]
  dsimp only
  have hsortne : jsSortBy cmpDistIndex
      ((List.range (nSegments verts closed).toNat).map (fun (i : ℕ) =>
        let q := queryPointToSegmentAB point (jsAtD verts (i : ℤ) vec0)
          (jsAtD verts ((i : ℤ) + 1) vec0)
        ({point := q.1, distance := q.2, index := i, offset := 0} : CurveLoc))) ≠ [] := by
    apply jsSortBy_ne_nil
    intro hc
    have := congrArg List.length hc
    simp at this
    omega
  obtain ⟨cl0, t, hsort⟩ := List.exists_cons_of_ne_nil hsortne
  rw [hsort]
  dsimp only [List.head?_cons]
  refine ⟨_, rfl, ?_⟩
  have hmin := jsSortBy_head_min _ cl0 (by rw [hsort]; rfl)
  intro v hv
  obtain ⟨⟨j, hj⟩, rfl⟩ := List.mem_iff_get.mp hv
  show cl0.distance ≤ point.dist (verts.get ⟨j, hj⟩)
  -- choose a segment index whose endpoints include vertex j
  have hcover : ∃ i : ℕ, i < (nSegments verts closed).toNat ∧
      (jsAtD verts (i : ℤ) vec0 = verts.get ⟨j, hj⟩ ∨
       jsAtD verts ((i : ℤ) + 1) vec0 = verts.get ⟨j, hj⟩) := by
    have hn0 : verts.length ≠ 0 := by omega
    cases closed with
    | true =>
      have hNn : (nSegments verts true).toNat = verts.length := by
        simp [nSegments]
      refine ⟨j, by omega, Or.inl ?_⟩
      rw [jsAtD_of_nonneg_lt verts (j : ℤ) vec0 (by omega) (by exact_mod_cast hj)]
      rw [show ((j : ℤ)).toNat = j from rfl, List.getD_eq_getElem _ _ hj]
      rfl
    | false =>
      have hNn : (nSegments verts false).toNat = verts.length - 1 := by
        simp [nSegments] at h ⊢
      by_cases hjlast : j < verts.length - 1
      · refine ⟨j, by omega, Or.inl ?_⟩
        rw [jsAtD_of_nonneg_lt verts (j : ℤ) vec0 (by omega) (by exact_mod_cast hj)]
        rw [show ((j : ℤ)).toNat = j from rfl, List.getD_eq_getElem _ _ hj]
        rfl
      · have hj' : j = verts.length - 1 := by omega
        have hlen2 : 2 ≤ verts.length := by
          simp [nSegments] at h
          omega
        refine ⟨verts.length - 2, by omega, Or.inr ?_⟩
        have hcast : ((verts.length - 2 : ℕ) : ℤ) + 1 = ((verts.length - 1 : ℕ) : ℤ) := by
          omega
        rw [hcast, jsAtD_of_nonneg_lt verts _ vec0 (by omega)
          (by exact_mod_cast (by omega : verts.length - 1 < verts.length))]
        rw [show (((verts.length - 1 : ℕ) : ℤ)).toNat = verts.length - 1 by omega]
        rw [List.getD_eq_getElem _ _ (by omega : verts.length - 1 < verts.length)]
        subst hj'
        rfl
  obtain ⟨i, hiN, hcov⟩ := hcover
  have hyin : ({point := (queryPointToSegmentAB point (jsAtD verts (i : ℤ) vec0) (jsAtD verts ((i : ℤ) + 1) vec0)).1, distance := (queryPointToSegmentAB point (jsAtD verts (i : ℤ) vec0) (jsAtD verts ((i : ℤ) + 1) vec0)).2, index := i, offset := 0} : CurveLoc) ∈
      ((List.range (nSegments verts closed).toNat).map (fun (i : ℕ) =>
        let q := queryPointToSegmentAB point (jsAtD verts (i : ℤ) vec0)
          (jsAtD verts ((i : ℤ) + 1) vec0)
        ({point := q.1, distance := q.2, index := i, offset := 0} : CurveLoc))) :=
    List.mem_map_of_mem _ (List.mem_range.mpr hiN)
  have hle := hmin _ hyin
  have hq := query_le_endpoints point (jsAtD verts (i : ℤ) vec0)
    (jsAtD verts ((i : ℤ) + 1) vec0)
  have hle2 : cl0.distance ≤ (queryPointToSegmentAB point (jsAtD verts (i : ℤ) vec0)
      (jsAtD verts ((i : ℤ) + 1) vec0)).2 := hle
  rcases hcov with hcov | hcov
  · calc cl0.distance
        ≤ (queryPointToSegmentAB point (jsAtD verts (i : ℤ) vec0)
            (jsAtD verts ((i : ℤ) + 1) vec0)).2 := hle2
      _ ≤ point.dist (jsAtD verts (i : ℤ) vec0) := hq.1
      _ = point.dist (verts.get ⟨j, hj⟩) := by rw [hcov]
  · calc cl0.distance
        ≤ (queryPointToSegmentAB point (jsAtD verts (i : ℤ) vec0)
            (jsAtD verts ((i : ℤ) + 1) vec0)).2 := hle2
      _ ≤ point.dist (jsAtD verts ((i : ℤ) + 1) vec0) := hq.2
      _ = point.dist (verts.get ⟨j, hj⟩) := by rw [hcov]

/-- Witness for `nearest_location_min_distance` on the single-segment path
(0,0)–(3,4) queried from (1,1). -/
theorem nearest_location_min_distance_witness :
    1 ≤ nSegments [(⟨0,0,0⟩ : Vec), ⟨3,4,0⟩] false ∧
    ∃ cl : CurveLoc,
      getNearestLocation [(⟨0,0,0⟩ : Vec), ⟨3,4,0⟩] false none ⟨1,1,0⟩ =
        some (some cl) ∧
      ∀ v ∈ [(⟨0,0,0⟩ : Vec), ⟨3,4,0⟩], cl.distance ≤ Vec.dist ⟨1,1,0⟩ v :=
  ⟨by simp [nSegments],
   nearest_location_min_distance [(⟨0,0,0⟩ : Vec), ⟨3,4,0⟩] false none ⟨1,1,0⟩
     (by simp [nSegments])⟩

theorem sqrt_hundred : Real.sqrt 100 = 10 := by
  rw [show (100 : ℝ) = 10 ^ 2 by norm_num]
  exact Real.sqrt_sq (by norm_num)

theorem square10_segLengths :
    calcSegLengths [(⟨0,0,0⟩ : Vec), ⟨10,0,0⟩, ⟨10,10,0⟩, ⟨0,10,0⟩] true none =
      [10, 10, 10, 10] := by
  norm_num [calcSegLengths, List.mapIdx_cons, jsAtD, jsAt, Vec.distP, Vec.copyPat,
    Vec.sub, Vec.mag, Vec.magSq, sqrt_hundred, Int.toNat_ofNat,
    show ((0:ℤ)).toNat = 0 from rfl, show ((1:ℤ)).toNat = 1 from rfl,
    show ((2:ℤ)).toNat = 2 from rfl, show ((3:ℤ)).toNat = 3 from rfl]

theorem square10_cumulative :
    pathCumulative [(⟨0,0,0⟩ : Vec), ⟨10,0,0⟩, ⟨10,10,0⟩, ⟨0,10,0⟩] true none =
      [10, 20, 30, 40] := by
  rw [pathCumulative, square10_segLengths]
  norm_num [cumulativeSum, cumAux]

theorem square10_length :
    calcPathLength [(⟨0,0,0⟩ : Vec), ⟨10,0,0⟩, ⟨10,10,0⟩, ⟨0,10,0⟩] true none = 40 := by
  rw [calcPathLength, square10_segLengths]
  norm_num [listSum]

/-- C4: the concrete scenario of the spec: the closed path on the square
with corners (0,0), (10,0), (10,10), (0,10) has total length 40,
`getPointAt(20)` is the corner (10,10), and `getPointAt(5)` is the
midpoint (5,0) of the first edge. -/
theorem square10_scenario :
    calcPathLength [(⟨0,0,0⟩ : Vec), ⟨10,0,0⟩, ⟨10,10,0⟩, ⟨0,10,0⟩] true none = 40 ∧
    getPointAt [(⟨0,0,0⟩ : Vec), ⟨10,0,0⟩, ⟨10,10,0⟩, ⟨0,10,0⟩] true none 20 =
      ⟨10, 10, 0⟩ ∧
    getPointAt [(⟨0,0,0⟩ : Vec), ⟨10,0,0⟩, ⟨10,10,0⟩, ⟨0,10,0⟩] true none 5 =
      ⟨5, 0, 0⟩ := by
  refine ⟨square10_length, ?_, ?_⟩
  · -- getPointAt 20
    have hgo : indexInterpolatedGo [(0:ℝ), 10, 20, 30, 40] 20 0 = 1 := by
      rw [indexInterpolatedGo]
      norm_num
      rw [indexInterpolatedGo]
      norm_num
    have hii : getIndexInterpolatedAt
        [(⟨0,0,0⟩ : Vec), ⟨10,0,0⟩, ⟨10,10,0⟩, ⟨0,10,0⟩] true none 20 = 2 := by
      rw [getIndexInterpolatedAt, square10_length, square10_cumulative]
      have h1 : clamp 20 0 40 = 20 := by norm_num [clamp]
      rw [h1, indexInterpolated, hgo]
      have h2 : clamp ((20 - (10:ℝ)) / (20 - 10)) 0 1 = 1 := by norm_num [clamp]
      norm_num [h2, nSegments, clamp, jsMod, rtrunc,
        show ⌊(1/2 : ℝ)⌋ = 0 from by rw [Int.floor_eq_iff]; norm_num]
    rw [getPointAt, hii]
    have hfl : ⌊(2 : ℝ)⌋ = 2 := by rw [Int.floor_eq_iff]; norm_num
    have hcl : ⌈(2 : ℝ)⌉ = 2 := by rw [Int.ceil_eq_iff]; norm_num
    norm_num [hfl, hcl, jsAtD, jsAt, Vec.lerp, Int.toNat_ofNat,
      show ((0:ℤ)).toNat = 0 from rfl, show ((1:ℤ)).toNat = 1 from rfl,
      show ((2:ℤ)).toNat = 2 from rfl, show ((3:ℤ)).toNat = 3 from rfl]
  · -- getPointAt 5
    have hgo : indexInterpolatedGo [(0:ℝ), 10, 20, 30, 40] 5 0 = 0 := by
      rw [indexInterpolatedGo]
      norm_num
    have hii : getIndexInterpolatedAt
        [(⟨0,0,0⟩ : Vec), ⟨10,0,0⟩, ⟨10,10,0⟩, ⟨0,10,0⟩] true none 5 = 1/2 := by
      rw [getIndexInterpolatedAt, square10_length, square10_cumulative]
      have h1 : clamp 5 0 40 = 5 := by norm_num [clamp]
      rw [h1, indexInterpolated, hgo]
      have h2 : clamp (((5:ℝ) - 0) / (10 - 0)) 0 1 = 1/2 := by norm_num [clamp]
      norm_num [h2, nSegments, clamp, jsMod, rtrunc,
        show ⌊(1/8 : ℝ)⌋ = 0 from by rw [Int.floor_eq_iff]; norm_num]
    rw [getPointAt, hii]
    have hfl : ⌊(1/2 : ℝ)⌋ = 0 := by rw [Int.floor_eq_iff]; norm_num
    have hcl : ⌈(1/2 : ℝ)⌉ = 1 := by rw [Int.ceil_eq_iff]; norm_num
    norm_num [hfl, hcl, jsAtD, jsAt, Vec.lerp, Int.toNat_ofNat,
      show ((0:ℤ)).toNat = 0 from rfl, show ((1:ℤ)).toNat = 1 from rfl,
      show ((2:ℤ)).toNat = 2 from rfl, show ((3:ℤ)).toNat = 3 from rfl]

theorem removeDupGo_sublist (samples : List Vec) :
    ∀ (k i : ℕ) (prev : Vec), samples.length - i ≤ k →
      List.Sublist (removeDupGo samples prev i) (samples.drop i) := by
  intro k
  induction k with
  | zero =>
      intro i prev hk
      rw [removeDupGo, dif_neg (by omega)]
      exact List.nil_sublist _
  | succ k ih =>
      intro i prev hk
      rw [removeDupGo]
      by_cases h : i < samples.length
      · rw [dif_pos h, List.drop_eq_getElem_cons h]
        by_cases hc : jsEps < (samples[i]).dist prev
        · rw [if_pos hc]
          exact (ih (i + 1) _ (by omega)).cons₂ _
        · rw [if_neg hc]
          exact (ih (i + 1) prev (by omega)).cons _
      · rw [dif_neg h]
        exact List.nil_sublist _

theorem removeDupPointsFromPath_sublist (samples : List Vec) (closed : Bool) :
    List.Sublist (removeDupPointsFromPath samples closed) samples := by
  have hsub : List.Sublist (match samples with
      | [] => ([] : List Vec)
      | s :: _ => s :: removeDupGo samples s 1) samples := by
    cases samples with
    | nil => exact List.nil_sublist _
    | cons s t =>
        have h1 : List.Sublist (removeDupGo (s :: t) s 1) t := by
          simpa using removeDupGo_sublist (s :: t) t.length 1 s (by simp)
        exact h1.cons₂ s
  rw [removeDupPointsFromPath.eq_def]
  dsimp only
  split
  · exact (List.dropLast_sublist _).trans hsub
  · exact hsub

theorem removeColinearGo_sublist (samples : List Vec) (closed : Bool) :
    ∀ (k i : ℕ), samples.length - i ≤ k →
      List.Sublist (removeColinearGo samples closed i) (samples.drop i) := by
  intro k
  induction k with
  | zero =>
      intro i hk
      rw [removeColinearGo, dif_neg (by omega)]
      exact List.nil_sublist _
  | succ k ih =>
      intro i hk
      rw [removeColinearGo]
      by_cases h : i < samples.length
      · rw [dif_pos h, List.drop_eq_getElem_cons h]
        have htail := ih (i + 1) (by omega)
        by_cases hc : closed = false ∧ (i = 0 ∨ i = samples.length - 1)
        · rw [if_pos hc, Vec.copyPat_none]
          exact htail.cons₂ _
        · rw [if_neg hc]
          dsimp only
          split
          · rw [Vec.copyPat_none]
            exact htail.cons₂ _
          · exact htail.cons _
      · rw [dif_neg h]
        exact List.nil_sublist _

theorem removeColinearPointsFromPath_sublist (samples : List Vec) (closed : Bool) :
    List.Sublist (removeColinearPointsFromPath samples closed) samples := by
  simpa using removeColinearGo_sublist samples closed samples.length 0 (by omega)

theorem cleanOne_idem (useZ : Bool) (v : Vec) :
    cleanOne useZ (cleanOne useZ v) = cleanOne useZ v := by
  cases useZ <;> rfl

/-- A vertex list is already clean (for a fixed `useZ`) when every
element is a fixed point of the per-vertex cleaning copy. -/
def IsCleanList (useZ : Bool) (xs : List Vec) : Prop :=
  ∀ v ∈ xs, cleanOne useZ v = v

theorem cleanVerts_of_isCleanList (useZ : Bool) (xs : List Vec)
    (h : IsCleanList useZ xs) : cleanVerts useZ xs = xs := by
  rw [cleanVerts]
  calc xs.map (cleanOne useZ) = xs.map id := List.map_congr_left h
    _ = xs := List.map_id xs

theorem isCleanList_cleanVerts (useZ : Bool) (xs : List Vec) :
    IsCleanList useZ (cleanVerts useZ xs) := by
  intro v hv
  rw [cleanVerts] at hv
  obtain ⟨w, _, rfl⟩ := List.mem_map.mp hv
  exact cleanOne_idem useZ w

theorem isCleanList_of_sublist (useZ : Bool) {xs ys : List Vec}
    (hsub : List.Sublist xs ys) (h : IsCleanList useZ ys) : IsCleanList useZ xs :=
  fun v hv => h v (hsub.subset hv)

theorem reduceVertsObs_sublist_of_clean (useZ closed : Bool) (xs : List Vec)
    (h : IsCleanList useZ xs) : List.Sublist (reduceVertsObs useZ closed xs) xs := by
  rw [reduceVertsObs]
  have h1 : List.Sublist (removeDupPointsFromPath xs closed) xs :=
    removeDupPointsFromPath_sublist xs closed
  have hc1 : IsCleanList useZ (removeDupPointsFromPath xs closed) :=
    isCleanList_of_sublist useZ h1 h
  rw [cleanVerts_of_isCleanList useZ _ hc1]
  have h2 := removeColinearPointsFromPath_sublist
    (removeDupPointsFromPath xs closed) closed
  have hc2 : IsCleanList useZ
      (removeColinearPointsFromPath (removeDupPointsFromPath xs closed) closed) :=
    isCleanList_of_sublist useZ h2 hc1
  rw [cleanVerts_of_isCleanList useZ _ hc2]
  exact h2.trans h1

theorem isCleanList_reduceVertsObs (useZ closed : Bool) (xs : List Vec) :
    IsCleanList useZ (reduceVertsObs useZ closed xs) := by
  rw [reduceVertsObs]
  exact isCleanList_cleanVerts useZ _

theorem reduceVertsObs_length_le (useZ closed : Bool) (xs : List Vec) :
    (reduceVertsObs useZ closed xs).length ≤ xs.length := by
  rw [reduceVertsObs]
  calc (cleanVerts useZ (removeColinearPointsFromPath
          (cleanVerts useZ (removeDupPointsFromPath xs closed)) closed)).length
      = (removeColinearPointsFromPath
          (cleanVerts useZ (removeDupPointsFromPath xs closed)) closed).length := by
        rw [cleanVerts, List.length_map]
    _ ≤ (cleanVerts useZ (removeDupPointsFromPath xs closed)).length :=
        (removeColinearPointsFromPath_sublist _ _).length_le
    _ = (removeDupPointsFromPath xs closed).length := by
        rw [cleanVerts, List.length_map]
    _ ≤ xs.length := (removeDupPointsFromPath_sublist _ _).length_le

theorem reduceVertsObs_fix_of_clean (useZ closed : Bool) :
    ∀ (L : ℕ) (ys : List Vec), ys.length ≤ L → IsCleanList useZ ys →
      ∃ n ≤ ys.length,
        (reduceVertsObs useZ closed)^[n + 1] ys =
          (reduceVertsObs useZ closed)^[n] ys := by
  intro L
  induction L with
  | zero =>
      intro ys hlen hclean
      have hnil : ys = [] := List.eq_nil_of_length_eq_zero (by omega)
      subst hnil
      have h := reduceVertsObs_sublist_of_clean useZ closed [] hclean
      exact ⟨0, le_rfl, by simp [List.sublist_nil.mp h]⟩
  | succ L ih =>
      intro ys hlen hclean
      by_cases hfix : reduceVertsObs useZ closed ys = ys
      · exact ⟨0, Nat.zero_le _, by simp [hfix]⟩
      · have hsub := reduceVertsObs_sublist_of_clean useZ closed ys hclean
        have hlt : (reduceVertsObs useZ closed ys).length < ys.length := by
          rcases Nat.lt_or_ge (reduceVertsObs useZ closed ys).length ys.length with h | h
          · exact h
          · exact absurd (hsub.eq_of_length (le_antisymm hsub.length_le h)) hfix
        obtain ⟨m, hm, hfp⟩ := ih (reduceVertsObs useZ closed ys) (by omega)
          (isCleanList_reduceVertsObs useZ closed ys)
        refine ⟨m + 1, by omega, ?_⟩
        simp only [Function.iterate_succ_apply] at hfp ⊢
        exact hfp

theorem reduceVertsObs_eventually_fixed (useZ closed : Bool) (xs : List Vec) :
    ∃ n ≤ xs.length + 1,
      (reduceVertsObs useZ closed)^[n + 1] xs =
        (reduceVertsObs useZ closed)^[n] xs := by
  obtain ⟨m, hm, hfp⟩ := reduceVertsObs_fix_of_clean useZ closed
    (reduceVertsObs useZ closed xs).length (reduceVertsObs useZ closed xs) le_rfl
    (isCleanList_reduceVertsObs useZ closed xs)
  refine ⟨m + 1, ?_, ?_⟩
  · have := reduceVertsObs_length_le useZ closed xs
    omega
  · simp only [Function.iterate_succ_apply] at hfp ⊢
    exact hfp

theorem cleanVertices_useZ (s : PathState) : (s.cleanVertices).useZ = s.useZ := by
  rw [PathState.cleanVertices]
  split <;> rfl

theorem cleanVertices_closed (s : PathState) : (s.cleanVertices).closed = s.closed := by
  rw [PathState.cleanVertices]
  split <;> rfl

theorem readVertices_snd_useZ (s : PathState) : ((s.readVertices).2).useZ = s.useZ :=
  cleanVertices_useZ s

theorem readVertices_snd_closed (s : PathState) : ((s.readVertices).2).closed = s.closed :=
  cleanVertices_closed s

theorem setVertices_useZ (s : PathState) (xs : List Vec) :
    (s.setVertices xs).useZ = s.useZ := rfl

theorem setVertices_closed (s : PathState) (xs : List Vec) :
    (s.setVertices xs).closed = s.closed := rfl

theorem reduce_useZ (s : PathState) : (PathState.reduce s).useZ = s.useZ := by
  rw [PathState.reduce, PathState.removeColinearVertices, setVertices_useZ,
    readVertices_snd_useZ, PathState.removeDuplicateVertices, setVertices_useZ,
    readVertices_snd_useZ]

theorem reduce_closed (s : PathState) : (PathState.reduce s).closed = s.closed := by
  rw [PathState.reduce, PathState.removeColinearVertices, setVertices_closed,
    readVertices_snd_closed, PathState.removeDuplicateVertices, setVertices_closed,
    readVertices_snd_closed]

theorem readVertices_reduce (s : PathState) :
    ((PathState.reduce s).readVertices).1 =
      reduceVertsObs s.useZ s.closed ((s.readVertices).1) := by
  simp only [PathState.reduce, PathState.removeColinearVertices,
    PathState.removeDuplicateVertices, readVertices_setVertices,
    setVertices_useZ, setVertices_closed, readVertices_snd_useZ,
    readVertices_snd_closed, reduceVertsObs]

theorem reduce_iterate_useZ (s : PathState) (n : ℕ) :
    ((PathState.reduce)^[n] s).useZ = s.useZ := by
  induction n with
  | zero => rfl
  | succ n ih => rw [Function.iterate_succ_apply', reduce_useZ, ih]

theorem reduce_iterate_closed (s : PathState) (n : ℕ) :
    ((PathState.reduce)^[n] s).closed = s.closed := by
  induction n with
  | zero => rfl
  | succ n ih => rw [Function.iterate_succ_apply', reduce_closed, ih]

theorem readVertices_reduce_iterate (s : PathState) (n : ℕ) :
    (((PathState.reduce)^[n] s).readVertices).1 =
      (reduceVertsObs s.useZ s.closed)^[n] ((s.readVertices).1) := by
  induction n with
  | zero => rfl
  | succ n ih =>
      rw [Function.iterate_succ_apply', Function.iterate_succ_apply',
        readVertices_reduce, reduce_iterate_useZ, reduce_iterate_closed, ih]

theorem Vec.dist_eval (a b : Vec) :
    a.dist b = Real.sqrt ((b.x - a.x) * (b.x - a.x) + (b.y - a.y) * (b.y - a.y) +
      (b.z - a.z) * (b.z - a.z)) := rfl

theorem jsEps_lt_sqrt (x : ℝ) (h : 1 ≤ x) : jsEps < Real.sqrt x := by
  have h1 : (1 : ℝ) ≤ Real.sqrt x := by
    rw [show (1 : ℝ) = Real.sqrt 1 from Real.sqrt_one.symm]
    exact Real.sqrt_le_sqrt h
  have h2 : jsEps < 1 := by rw [jsEps]; norm_num
  linarith

theorem dot_norm_comp (ux uy vx vy : ℝ) (hu : 0 < ux * ux + uy * uy)
    (hv : 0 < vx * vx + vy * vy) :
    ((⟨ux, uy, 0⟩ : Vec).norm).dot ((⟨vx, vy, 0⟩ : Vec).norm) =
      (ux * vx + uy * vy) / Real.sqrt ((ux * ux + uy * uy) * (vx * vx + vy * vy)) := by
  have hmu : (⟨ux, uy, 0⟩ : Vec).mag = Real.sqrt (ux * ux + uy * uy) := by
    rw [Vec.mag, Vec.magSq]; norm_num
  have hmv : (⟨vx, vy, 0⟩ : Vec).mag = Real.sqrt (vx * vx + vy * vy) := by
    rw [Vec.mag, Vec.magSq]; norm_num
  have hsu : Real.sqrt (ux * ux + uy * uy) ≠ 0 := (Real.sqrt_pos.mpr hu).ne'
  have hsv : Real.sqrt (vx * vx + vy * vy) ≠ 0 := (Real.sqrt_pos.mpr hv).ne'
  have hmu0 : (⟨ux, uy, 0⟩ : Vec).mag ≠ 0 := by rw [hmu]; exact hsu
  have hmv0 : (⟨vx, vy, 0⟩ : Vec).mag ≠ 0 := by rw [hmv]; exact hsv
  rw [Vec.norm, Vec.norm, Vec.normalize, Vec.normalize, if_neg hmu0, if_neg hmv0]
  rw [Real.sqrt_mul (by positivity) _]
  simp only [Vec.dot, Vec.multS, hmu, hmv]
  field_simp

theorem div_sqrt_lt_of_sq (d m c : ℝ) (hd : 0 ≤ d) (hm : 0 < m) (hc : 0 ≤ c)
    (h : d ^ 2 < c ^ 2 * m) : d / Real.sqrt m < c := by
  have hs : 0 < Real.sqrt m := Real.sqrt_pos.mpr hm
  rw [div_lt_iff hs]
  have h2 : (c * Real.sqrt m) ^ 2 = c ^ 2 * m := by
    rw [mul_pow, Real.sq_sqrt hm.le]
  exact lt_of_pow_lt_pow_left 2 (by positivity) (h.trans_eq h2.symm)

theorem le_div_sqrt_of_sq (d m c : ℝ) (hd : 0 ≤ d) (hm : 0 < m) (hc : 0 ≤ c)
    (h : c ^ 2 * m ≤ d ^ 2) : c ≤ d / Real.sqrt m := by
  have hs : 0 < Real.sqrt m := Real.sqrt_pos.mpr hm
  rw [le_div_iff hs]
  have h2 : (c * Real.sqrt m) ^ 2 = c ^ 2 * m := by
    rw [mul_pow, Real.sq_sqrt hm.le]
  exact le_of_pow_le_pow_left (by norm_num) hd (h2 ▸ h)

theorem div_sqrt_le_one (d m : ℝ) (hm : 0 < m) (h : d ^ 2 ≤ m) :
    d / Real.sqrt m ≤ 1 := by
  have hs : 0 < Real.sqrt m := Real.sqrt_pos.mpr hm
  rw [div_le_one hs]
  calc d ≤ |d| := le_abs_self d
    _ = Real.sqrt (d ^ 2) := (Real.sqrt_sq_eq_abs d).symm
    _ ≤ Real.sqrt m := Real.sqrt_le_sqrt h

theorem cleanOne_false_z0 (a b : ℝ) : cleanOne false ⟨a, b, 0⟩ = ⟨a, b, 0⟩ := rfl

theorem dup_pass1 :
    removeDupPointsFromPath
      [(⟨0,0,0⟩ : Vec), ⟨1,0,0⟩, ⟨33554433,1,0⟩, ⟨1099545182209,16385,0⟩] false =
      [(⟨0,0,0⟩ : Vec), ⟨1,0,0⟩, ⟨33554433,1,0⟩, ⟨1099545182209,16385,0⟩] := by
  have hd1 : jsEps < (Vec.mk 1 0 0).dist ⟨0,0,0⟩ := by
    rw [Vec.dist_eval]; apply jsEps_lt_sqrt; norm_num
  have hd2 : jsEps < (Vec.mk 33554433 1 0).dist ⟨1,0,0⟩ := by
    rw [Vec.dist_eval]; apply jsEps_lt_sqrt; norm_num
  have hd3 : jsEps < (Vec.mk 1099545182209 16385 0).dist ⟨33554433,1,0⟩ := by
    rw [Vec.dist_eval]; apply jsEps_lt_sqrt; norm_num
  simp [removeDupPointsFromPath, removeDupGo, eq_true hd1, eq_true hd2, eq_true hd3]

theorem colinKeep1 :
    jsEps < |((Vec.mk 1 0 0).norm).dot ((Vec.mk 33554432 1 0).norm) - 1| := by
  rw [dot_norm_comp 1 0 33554432 1 (by norm_num) (by norm_num)]
  have h0 : (0:ℝ) ≤ (1 * 33554432 + 0 * 1) /
      Real.sqrt ((1 * 1 + 0 * 0) * (33554432 * 33554432 + 1 * 1)) := by positivity
  have h1 : (1 * 33554432 + 0 * 1) /
      Real.sqrt ((1 * 1 + 0 * 0) * (33554432 * 33554432 + 1 * 1)) < 1 - jsEps := by
    apply div_sqrt_lt_of_sq
    · norm_num
    · norm_num
    · rw [jsEps]; norm_num
    · rw [jsEps]; norm_num
  have h2 : jsEps < 1 := by rw [jsEps]; norm_num
  have h3 : (0:ℝ) < jsEps := by rw [jsEps]; norm_num
  rw [abs_of_neg (by linarith)]
  linarith

theorem colinDrop2 :
    ¬ (jsEps < |((Vec.mk 33554432 1 0).norm).dot
      ((Vec.mk 1099511627776 16384 0).norm) - 1|) := by
  rw [dot_norm_comp 33554432 1 1099511627776 16384 (by norm_num) (by norm_num)]
  have h1 : 1 - jsEps ≤ (33554432 * 1099511627776 + 1 * 16384) /
      Real.sqrt ((33554432 * 33554432 + 1 * 1) *
        (1099511627776 * 1099511627776 + 16384 * 16384)) := by
    apply le_div_sqrt_of_sq
    · norm_num
    · norm_num
    · rw [jsEps]; norm_num
    · rw [jsEps]; norm_num
  have h2 : (33554432 * 1099511627776 + 1 * 16384) /
      Real.sqrt ((33554432 * 33554432 + 1 * 1) *
        (1099511627776 * 1099511627776 + 16384 * 16384)) ≤ 1 := by
    apply div_sqrt_le_one
    · norm_num
    · norm_num
  rw [not_lt, abs_le]
  constructor
  · linarith
  · have h3 : (0:ℝ) < jsEps := by rw [jsEps]; norm_num
    linarith

set_option maxRecDepth 4000 in
theorem colin_pass1 :
    removeColinearPointsFromPath
      [(⟨0,0,0⟩ : Vec), ⟨1,0,0⟩, ⟨33554433,1,0⟩, ⟨1099545182209,16385,0⟩] false =
      [(⟨0,0,0⟩ : Vec), ⟨1,0,0⟩, ⟨1099545182209,16385,0⟩] := by
  have hK := colinKeep1
  have hD := colinDrop2
  simp [removeColinearPointsFromPath, removeColinearGo, jsAtD, jsAt, Vec.copyPat_none,
    Vec.sub,
    show ((0:ℤ)).toNat = 0 from rfl, show ((1:ℤ)).toNat = 1 from rfl,
    show ((2:ℤ)).toNat = 2 from rfl, show ((3:ℤ)).toNat = 3 from rfl]
  norm_num
  simp [eq_true hK, eq_false hD]

theorem dup_pass2 :
    removeDupPointsFromPath
      [(⟨0,0,0⟩ : Vec), ⟨1,0,0⟩, ⟨1099545182209,16385,0⟩] false =
      [(⟨0,0,0⟩ : Vec), ⟨1,0,0⟩, ⟨1099545182209,16385,0⟩] := by
  have hd1 : jsEps < (Vec.mk 1 0 0).dist ⟨0,0,0⟩ := by
    rw [Vec.dist_eval]; apply jsEps_lt_sqrt; norm_num
  have hd2 : jsEps < (Vec.mk 1099545182209 16385 0).dist ⟨1,0,0⟩ := by
    rw [Vec.dist_eval]; apply jsEps_lt_sqrt; norm_num
  simp [removeDupPointsFromPath, removeDupGo, eq_true hd1, eq_true hd2]

theorem colinDrop3 :
    ¬ (jsEps < |((Vec.mk 1 0 0).norm).dot ((Vec.mk 1099545182208 16385 0).norm) - 1|) := by
  rw [dot_norm_comp 1 0 1099545182208 16385 (by norm_num) (by norm_num)]
  have h1 : 1 - jsEps ≤ (1 * 1099545182208 + 0 * 16385) /
      Real.sqrt ((1 * 1 + 0 * 0) *
        (1099545182208 * 1099545182208 + 16385 * 16385)) := by
    apply le_div_sqrt_of_sq
    · norm_num
    · norm_num
    · rw [jsEps]; norm_num
    · rw [jsEps]; norm_num
  have h2 : (1 * 1099545182208 + 0 * 16385) /
      Real.sqrt ((1 * 1 + 0 * 0) *
        (1099545182208 * 1099545182208 + 16385 * 16385)) ≤ 1 := by
    apply div_sqrt_le_one
    · norm_num
    · norm_num
  rw [not_lt, abs_le]
  constructor
  · linarith
  · have h3 : (0:ℝ) < jsEps := by rw [jsEps]; norm_num
    linarith

set_option maxRecDepth 4000 in
theorem colin_pass2 :
    removeColinearPointsFromPath
      [(⟨0,0,0⟩ : Vec), ⟨1,0,0⟩, ⟨1099545182209,16385,0⟩] false =
      [(⟨0,0,0⟩ : Vec), ⟨1099545182209,16385,0⟩] := by
  have hD := colinDrop3
  simp [removeColinearPointsFromPath, removeColinearGo, jsAtD, jsAt, Vec.copyPat_none,
    Vec.sub,
    show ((0:ℤ)).toNat = 0 from rfl, show ((1:ℤ)).toNat = 1 from rfl,
    show ((2:ℤ)).toNat = 2 from rfl]
  norm_num
  exact not_lt.mp hD

/-- C6 (counterexample): `reduce()` is not idempotent.  On the open path
(0,0), (1,0), (1+2^25, 1), (1+2^25+2^40, 1+2^14) no two neighbors are
within `Number.EPSILON` of each other, and the first `reduce()` removes
only the third vertex — the unit directions around it agree to within
`Number.EPSILON` while those around the second vertex do not.  With the
third vertex gone, the directions around the second vertex now also
agree to within `Number.EPSILON`, so a second `reduce()` removes it as
well: the vertex lists read back after one and after two calls differ. -/
theorem reduce_not_idempotent :
    ((PathState.reduce (PathState.reduce (PathState.init
        [(⟨0,0,0⟩ : Vec), ⟨1,0,0⟩, ⟨33554433,1,0⟩,
         ⟨1099545182209,16385,0⟩]))).readVertices).1 ≠
      ((PathState.reduce (PathState.init
        [(⟨0,0,0⟩ : Vec), ⟨1,0,0⟩, ⟨33554433,1,0⟩,
         ⟨1099545182209,16385,0⟩])).readVertices).1 := by
  have hclean1 : cleanVerts false
      [(⟨0,0,0⟩ : Vec), ⟨1,0,0⟩, ⟨33554433,1,0⟩, ⟨1099545182209,16385,0⟩] =
      [(⟨0,0,0⟩ : Vec), ⟨1,0,0⟩, ⟨33554433,1,0⟩, ⟨1099545182209,16385,0⟩] := by
    simp [cleanVerts, cleanOne_false_z0]
  have hclean2 : cleanVerts false
      [(⟨0,0,0⟩ : Vec), ⟨1,0,0⟩, ⟨1099545182209,16385,0⟩] =
      [(⟨0,0,0⟩ : Vec), ⟨1,0,0⟩, ⟨1099545182209,16385,0⟩] := by
    simp [cleanVerts, cleanOne_false_z0]
  have hclean3 : cleanVerts false
      [(⟨0,0,0⟩ : Vec), ⟨1099545182209,16385,0⟩] =
      [(⟨0,0,0⟩ : Vec), ⟨1099545182209,16385,0⟩] := by
    simp [cleanVerts, cleanOne_false_z0]
  have h0 : ((PathState.init [(⟨0,0,0⟩ : Vec), ⟨1,0,0⟩, ⟨33554433,1,0⟩,
      ⟨1099545182209,16385,0⟩]).readVertices).1 =
      [(⟨0,0,0⟩ : Vec), ⟨1,0,0⟩, ⟨33554433,1,0⟩, ⟨1099545182209,16385,0⟩] := by
    rw [PathState.init, readVertices_setVertices]
    exact hclean1
  have h1 : ((PathState.reduce (PathState.init [(⟨0,0,0⟩ : Vec), ⟨1,0,0⟩,
      ⟨33554433,1,0⟩, ⟨1099545182209,16385,0⟩])).readVertices).1 =
      [(⟨0,0,0⟩ : Vec), ⟨1,0,0⟩, ⟨1099545182209,16385,0⟩] := by
    rw [readVertices_reduce, h0]
    show reduceVertsObs false false _ = _
    rw [reduceVertsObs, dup_pass1, hclean1, colin_pass1, hclean2]
  have h2 : ((PathState.reduce (PathState.reduce (PathState.init
      [(⟨0,0,0⟩ : Vec), ⟨1,0,0⟩, ⟨33554433,1,0⟩,
       ⟨1099545182209,16385,0⟩]))).readVertices).1 =
      [(⟨0,0,0⟩ : Vec), ⟨1099545182209,16385,0⟩] := by
    rw [readVertices_reduce, h1, reduce_useZ, reduce_closed]
    show reduceVertsObs false false _ = _
    rw [reduceVertsObs, dup_pass2, hclean2, colin_pass2, hclean3]
  rw [h1, h2]
  intro h
  have hlen := congrArg List.length h
  simp at hlen

/-- C6 (amended): `reduce()` need not be idempotent after one call, but
iterating it reaches a fixed point of the observable vertex list within
`vertices.length + 1` calls: some iterate at most one past the vertex
count reads back the same vertices as the next one. -/
theorem reduce_reaches_fixed_point (s : PathState) :
    ∃ n ≤ ((s.readVertices).1).length + 1,
      (((PathState.reduce)^[n + 1] s).readVertices).1 =
        (((PathState.reduce)^[n] s).readVertices).1 := by
  obtain ⟨n, hn, hfp⟩ := reduceVertsObs_eventually_fixed s.useZ s.closed
    ((s.readVertices).1)
  exact ⟨n, hn, by rw [readVertices_reduce_iterate, readVertices_reduce_iterate, hfp]⟩

/-- Witness for `offsets_invariants` at the closed unit square. -/
theorem offsets_invariants_witness :
    1 ≤ nSegments [(⟨0,0,0⟩ : Vec), ⟨1,0,0⟩, ⟨1,1,0⟩, ⟨0,1,0⟩] true ∧
    (pathOffsets [(⟨0,0,0⟩ : Vec), ⟨1,0,0⟩, ⟨1,1,0⟩, ⟨0,1,0⟩] true none).head? = some 0 :=
  ⟨by simp [nSegments],
    (offsets_invariants [(⟨0,0,0⟩ : Vec), ⟨1,0,0⟩, ⟨1,1,0⟩, ⟨0,1,0⟩] true none
      (by simp [nSegments])).1⟩



theorem rtrunc_of_nonneg (a : ℝ) (h : 0 ≤ a) : rtrunc a = ⌊a⌋ := by
  rw [rtrunc, if_pos h]

theorem jsMod_small (a r : ℝ) (hr : 0 < r) (h0 : 0 ≤ a) (h : a < r) :
    jsMod a r = a := by
  have hfl : ⌊a / r⌋ = 0 := by
    rw [Int.floor_eq_iff]
    constructor
    · push_cast
      positivity
    · push_cast
      rw [div_lt_iff hr]
      linarith
  rw [jsMod, rtrunc_of_nonneg _ (by positivity), hfl]
  push_cast
  ring

theorem jsMod_once (x r : ℝ) (hr : 0 < r) (h0 : r ≤ x) (h : x < 2 * r) :
    jsMod x r = x - r := by
  have hx : 0 ≤ x := le_trans hr.le h0
  have hfl : ⌊x / r⌋ = 1 := by
    rw [Int.floor_eq_iff]
    constructor
    · push_cast
      rw [le_div_iff hr]
      linarith
    · push_cast
      rw [div_lt_iff hr]
      linarith
  rw [jsMod, rtrunc_of_nonneg _ (by positivity), hfl]
  push_cast
  ring

theorem wrap_small_pos (a r : ℝ) (hr : 0 < r) (h0 : 0 < a) (h : a < r) :
    wrap a r = a := by
  have hce : ⌈|a / r|⌉ = 1 := by
    rw [Int.ceil_eq_iff]
    rw [abs_of_pos (by positivity)]
    constructor
    · push_cast
      simp only [sub_self]
      positivity
    · push_cast
      rw [div_le_one hr]
      linarith
  rw [wrap, hce]
  push_cast
  rw [show a + 1 * r = a + r from by ring]
  rw [jsMod_once (a + r) r hr (by linarith) (by linarith)]
  ring

theorem wrap_small_neg (a r : ℝ) (hr : 0 < r) (h0 : -r < a) (h : a < 0) :
    wrap a r = a + r := by
  have hce : ⌈|a / r|⌉ = 1 := by
    rw [Int.ceil_eq_iff]
    rw [abs_of_neg (div_neg_of_neg_of_pos h hr)]
    rw [show -(a / r) = (-a) / r from by ring]
    constructor
    · push_cast
      simp only [sub_self]
      exact div_pos (by linarith) hr
    · push_cast
      rw [div_le_one hr]
      linarith
  rw [wrap, hce]
  push_cast
  rw [show a + 1 * r = a + r from by ring]
  exact jsMod_small (a + r) r hr (by linarith) (by linarith)

theorem wrap_zero_left (r : ℝ) (hr : 0 < r) : wrap 0 r = 0 := by
  rw [wrap]
  norm_num
  rw [jsMod, rtrunc_of_nonneg _ (by norm_num)]
  norm_num

theorem one_le_sqrt_two : (1:ℝ) ≤ Real.sqrt 2 := by
  nlinarith [Real.sq_sqrt (show (0:ℝ) ≤ 2 by norm_num), Real.sqrt_nonneg 2]

theorem tan_pi_div_eight : Real.tan (π / 8) = Real.sqrt 2 - 1 := by
  have hs : Real.sqrt 2 ^ 2 = 2 := Real.sq_sqrt (by norm_num)
  have h1 : Real.tan (π / 8) = Real.sqrt (2 - Real.sqrt 2) / Real.sqrt (2 + Real.sqrt 2) := by
    rw [Real.tan_eq_sin_div_cos, Real.sin_pi_div_eight, Real.cos_pi_div_eight]
    rw [div_div_div_comm, div_self (by norm_num : (2:ℝ) ≠ 0), div_one]
  have h2 : (0:ℝ) ≤ 2 + Real.sqrt 2 := by positivity
  have hnn : 0 ≤ (Real.sqrt 2 - 1) * Real.sqrt (2 + Real.sqrt 2) := by
    apply mul_nonneg
    · linarith [one_le_sqrt_two]
    · exact Real.sqrt_nonneg _
  have hsq : ((Real.sqrt 2 - 1) * Real.sqrt (2 + Real.sqrt 2)) ^ 2 = 2 - Real.sqrt 2 := by
    rw [mul_pow, Real.sq_sqrt h2]
    linear_combination (Real.sqrt 2) * hs
  rw [h1, show (2 : ℝ) - Real.sqrt 2 = ((Real.sqrt 2 - 1) * Real.sqrt (2 + Real.sqrt 2)) ^ 2 from hsq.symm,
    Real.sqrt_sq hnn]
  rw [mul_div_assoc]
  rw [div_self (by positivity : Real.sqrt (2 + Real.sqrt 2) ≠ 0)]
  ring

theorem arctan_sqrt_two_sub_one : Real.arctan (Real.sqrt 2 - 1) = π / 8 := by
  rw [show Real.sqrt 2 - 1 = Real.tan (π / 8) from tan_pi_div_eight.symm]
  apply Real.arctan_tan
  · have := Real.pi_pos
    linarith
  · have := Real.pi_pos
    linarith

theorem sqrt_two_pos : (0:ℝ) < Real.sqrt 2 := by
  linarith [one_le_sqrt_two]

theorem one_div_sqrt_two : (1:ℝ) / Real.sqrt 2 = Real.sqrt 2 / 2 := by
  rw [div_eq_div_iff sqrt_two_pos.ne' (by norm_num : (2:ℝ) ≠ 0)]
  nlinarith [Real.sq_sqrt (show (0:ℝ) ≤ 2 by norm_num)]

theorem atan2_pos_x (y x : ℝ) (hx : 0 < x) : atan2 y x = Real.arctan (y / x) := by
  rw [atan2, if_pos hx]

theorem atan2_zero_one : atan2 0 1 = 0 := by
  rw [atan2_pos_x 0 1 (by norm_num)]
  norm_num [Real.arctan_zero]

theorem atan2_one_zero : atan2 1 0 = π / 2 := by
  rw [atan2]
  norm_num

theorem Vec.mag_eval (x y z : ℝ) :
    (⟨x, y, z⟩ : Vec).mag = Real.sqrt (x * x + y * y + z * z) := rfl

theorem Vec.norm_of_sq_one (x y : ℝ) (h : x * x + y * y = 1) :
    (⟨x, y, 0⟩ : Vec).norm = ⟨x, y, 0⟩ := by
  have hm : (⟨x, y, 0⟩ : Vec).mag = 1 := by
    rw [Vec.mag_eval, show x * x + y * y + 0 * 0 = 1 from by rw [← h]; ring, Real.sqrt_one]
  rw [Vec.norm, Vec.normalize, if_neg (by rw [hm]; norm_num), hm, Vec.multS]
  simp

theorem norm_one_one : (⟨1, 1, 0⟩ : Vec).norm =
    ⟨Real.sqrt 2 / 2, Real.sqrt 2 / 2, 0⟩ := by
  have hm : (⟨1, 1, 0⟩ : Vec).mag = Real.sqrt 2 := by
    rw [Vec.mag_eval]
    norm_num
  rw [Vec.norm, Vec.normalize, if_neg (by rw [hm]; exact sqrt_two_pos.ne'), hm, Vec.multS]
  rw [show (1:ℝ) * (1 / Real.sqrt 2) = 1 / Real.sqrt 2 from by ring, one_div_sqrt_two]
  norm_num

theorem norm_one_negone : (⟨1, -1, 0⟩ : Vec).norm =
    ⟨Real.sqrt 2 / 2, -(Real.sqrt 2 / 2), 0⟩ := by
  have hm : (⟨1, -1, 0⟩ : Vec).mag = Real.sqrt 2 := by
    rw [Vec.mag_eval]
    norm_num
  rw [Vec.norm, Vec.normalize, if_neg (by rw [hm]; exact sqrt_two_pos.ne'), hm, Vec.multS]
  rw [show (1:ℝ) * (1 / Real.sqrt 2) = 1 / Real.sqrt 2 from by ring, one_div_sqrt_two]
  norm_num

theorem signOr1_of_neg (v : ℝ) (h : v < 0) : signOr1 v = -1 := by
  rw [signOr1, if_neg h.ne, if_neg (by linarith)]

theorem signOr1_of_pos (v : ℝ) (h : 0 < v) : signOr1 v = 1 := by
  rw [signOr1, if_neg h.ne', if_pos h]

theorem angleBetween_units (a v : Vec) (ha : a.mag = 1) (hv : v.mag = 1) :
    a.angleBetween v =
      Real.arccos (min 1 (max (-1) (a.dot v))) * signOr1 ((a.cross v).z) := by
  have he : jsEps < 1 := by rw [jsEps]; norm_num
  rw [Vec.angleBetween, if_pos ⟨by rw [ha]; exact he, by rw [hv]; exact he⟩,
    Vec.angleBetweenRaw, ha, hv]
  norm_num

theorem clamp_id_of_mem (d : ℝ) (h1 : -1 ≤ d) (h2 : d ≤ 1) :
    min 1 (max (-1) d) = d := by
  rw [max_eq_right h1, min_eq_right h2]

theorem arccos_sqrt_two_div_two : Real.arccos (Real.sqrt 2 / 2) = π / 4 := by
  rw [← Real.cos_pi_div_four]
  apply Real.arccos_cos
  · positivity
  · linarith [Real.pi_pos]

theorem scale_two_pi (x : ℝ) : x / (2 * π) * 2 * π = x := by
  field_simp [Real.pi_ne_zero]
  ring

theorem unscale_two_pi (x : ℝ) : x / 2 / π * (2 * π) = x := by
  field_simp [Real.pi_ne_zero]

theorem wavg_tri : wrappedAverage [0, π / 2] (2 * π) = π / 4 := by
  have hpi := Real.pi_pos
  rw [wrappedAverage]
  simp only [List.map_cons, List.map_nil, List.length_cons, List.length_nil]
  rw [wrap_zero_left _ Real.two_pi_pos,
    wrap_small_pos (π / 2) (2 * π) Real.two_pi_pos (by linarith) (by linarith)]
  rw [scale_two_pi, scale_two_pi]
  rw [show listSum [Real.sin 0 * 1, Real.sin (π / 2) * 1] = 1 from by
    simp [listSum, Real.sin_zero, Real.sin_pi_div_two]]
  rw [show listSum [Real.cos 0 * 1, Real.cos (π / 2) * 1] = 1 from by
    simp [listSum, Real.cos_zero, Real.cos_pi_div_two]]
  norm_num [noNAN]
  rw [atan2_pos_x _ _ (by norm_num : (0:ℝ) < 1 / 4)]
  norm_num [Real.arctan_one]
  rw [wrap_small_pos (π / 4) (2 * π) Real.two_pi_pos (by linarith) (by linarith)]
  rw [unscale_two_pi]

theorem wavg_sq1 : wrappedAverage [π / 2, π / 4, 0] (2 * π) = π / 4 := by
  have hpi := Real.pi_pos
  rw [wrappedAverage]
  simp only [List.map_cons, List.map_nil, List.length_cons, List.length_nil]
  rw [wrap_zero_left _ Real.two_pi_pos,
    wrap_small_pos (π / 2) (2 * π) Real.two_pi_pos (by linarith) (by linarith),
    wrap_small_pos (π / 4) (2 * π) Real.two_pi_pos (by linarith) (by linarith)]
  rw [scale_two_pi, scale_two_pi, scale_two_pi]
  rw [show listSum [Real.sin (π / 2) * 1, Real.sin (π / 4) * 1, Real.sin 0 * 1] =
      1 + Real.sqrt 2 / 2 from by
    simp [listSum, Real.sin_zero, Real.sin_pi_div_two, Real.sin_pi_div_four]]
  rw [show listSum [Real.cos (π / 2) * 1, Real.cos (π / 4) * 1, Real.cos 0 * 1] =
      1 + Real.sqrt 2 / 2 from by
    simp [listSum, Real.cos_zero, Real.cos_pi_div_two, Real.cos_pi_div_four]
    ring]
  norm_num [noNAN]
  have hx : (0:ℝ) < (1 + Real.sqrt 2 / 2) / 3 / 3 := by positivity
  rw [atan2_pos_x _ _ hx]
  rw [div_self hx.ne', Real.arctan_one]
  rw [wrap_small_pos (π / 4) (2 * π) Real.two_pi_pos (by linarith) (by linarith)]
  rw [unscale_two_pi]

theorem wavg_sq2 : wrappedAverage [0, -(π / 4)] (2 * π) = 15 * π / 8 := by
  have hpi := Real.pi_pos
  have hs2 := sqrt_two_pos
  have hsq : Real.sqrt 2 ^ 2 = 2 := Real.sq_sqrt (by norm_num)
  rw [wrappedAverage]
  simp only [List.map_cons, List.map_nil, List.length_cons, List.length_nil]
  rw [wrap_zero_left _ Real.two_pi_pos,
    wrap_small_neg (-(π / 4)) (2 * π) Real.two_pi_pos (by linarith) (by linarith)]
  rw [scale_two_pi, scale_two_pi]
  rw [show listSum [Real.sin 0 * 1, Real.sin (-(π / 4) + 2 * π) * 1] =
      -(Real.sqrt 2 / 2) from by
    simp [listSum, Real.sin_zero, Real.sin_add_two_pi, Real.sin_neg, Real.sin_pi_div_four]]
  rw [show listSum [Real.cos 0 * 1, Real.cos (-(π / 4) + 2 * π) * 1] =
      1 + Real.sqrt 2 / 2 from by
    simp [listSum, Real.cos_zero, Real.cos_add_two_pi, Real.cos_neg, Real.cos_pi_div_four]]
  norm_num [noNAN]
  have hx : (0:ℝ) < (1 + Real.sqrt 2 / 2) / 2 / 2 := by positivity
  rw [atan2_pos_x _ _ hx]
  rw [show -(Real.sqrt 2 / 2) / 2 / 2 / ((1 + Real.sqrt 2 / 2) / 2 / 2) =
      -(Real.sqrt 2 - 1) from by
    rw [div_eq_iff hx.ne']
    linear_combination (1 / 8 : ℝ) * hsq]
  rw [Real.arctan_neg, arctan_sqrt_two_sub_one]
  rw [wrap_small_neg (-(π / 8)) (2 * π) Real.two_pi_pos (by linarith) (by linarith)]
  rw [show -(π / 8) + 2 * π = 15 * π / 8 from by ring]
  rw [unscale_two_pi]

theorem jsEps_lt_one : jsEps < 1 := by
  rw [jsEps]
  norm_num

theorem argAt_tri :
    argAt [(-(π/4), (1:ℝ)), (π/4, (1:ℝ))]
      (fun a b => if jsEps < |b.1 - a.1| then b.1 - a.1 else b.2 - a.2) = some 1 := by
  have hpi := Real.pi_gt_three
  have hgt : jsEps < |π/4 + π/4| := by
    rw [abs_of_pos (by linarith)]
    linarith [jsEps_lt_one]
  have hnp : ¬ (π/4 + π/4 ≤ 0) := by
    push_neg
    linarith
  simp [argAt, jsSortBy, List.insertionSort, List.orderedInsert, eq_true hgt, eq_false hnp]

theorem jsEps_lt_quarter : jsEps < 1/4 := by
  rw [jsEps]
  norm_num

theorem argAt_sq1 :
    argAt [(π/4, (1:ℝ)), ((0:ℝ), Real.sqrt 2), (-(π/4), (1:ℝ))]
      (fun a b => if jsEps < |b.1 - a.1| then b.1 - a.1 else b.2 - a.2) = some 0 := by
  have hpi := Real.pi_gt_three
  have h1 : jsEps < |(π/4 : ℝ)| := by
    rw [abs_of_pos (by linarith)]
    linarith [jsEps_lt_quarter]
  have h2 : (-(π/4) : ℝ) ≤ 0 := by linarith
  simp [argAt, jsSortBy, List.insertionSort, List.orderedInsert, eq_true h1, eq_true h2]

theorem argAt_sq2 :
    argAt [(π/8, (1:ℝ)), (-(π/8), Real.sqrt 2)]
      (fun a b => if jsEps < |b.1 - a.1| then b.1 - a.1 else b.2 - a.2) = some 0 := by
  have hpi := Real.pi_gt_three
  have h1 : jsEps < |(-(π/8) - π/8 : ℝ)| := by
    rw [abs_of_neg (by linarith)]
    linarith [jsEps_lt_quarter]
  have h2 : (-(π/8) - π/8 : ℝ) ≤ 0 := by linarith
  simp [argAt, jsSortBy, List.insertionSort, List.orderedInsert, eq_true h1, eq_true h2]

theorem Vec.mag_of_sq_one (x y : ℝ) (h : x * x + y * y = 1) :
    (⟨x, y, 0⟩ : Vec).mag = 1 := by
  rw [Vec.mag_eval, show x * x + y * y + 0 * 0 = 1 from by rw [← h]; ring, Real.sqrt_one]

theorem angleBetween_units_eval (ax ay vx vy d cz : ℝ)
    (hmA : (⟨ax, ay, 0⟩ : Vec).mag = 1) (hmV : (⟨vx, vy, 0⟩ : Vec).mag = 1)
    (hdot : ax * vx + ay * vy = d) (hcz : ax * vy - ay * vx = cz)
    (h1 : -1 ≤ d) (h2 : d ≤ 1) :
    (⟨ax, ay, 0⟩ : Vec).angleBetween ⟨vx, vy, 0⟩ = Real.arccos d * signOr1 cz := by
  rw [angleBetween_units _ _ hmA hmV]
  rw [show (⟨ax, ay, 0⟩ : Vec).dot ⟨vx, vy, 0⟩ = d from by
    rw [Vec.dot, ← hdot]
    ring]
  rw [clamp_id_of_mem d h1 h2]
  rw [show ((⟨ax, ay, 0⟩ : Vec).cross ⟨vx, vy, 0⟩).z = cz from by
    rw [Vec.cross, ← hcz]]

theorem sqrt_two_le_two : Real.sqrt 2 ≤ 2 := by
  nlinarith [Real.sq_sqrt (show (0:ℝ) ≤ 2 by norm_num), Real.sqrt_nonneg 2]

theorem mag_s22 : (⟨Real.sqrt 2 / 2, Real.sqrt 2 / 2, 0⟩ : Vec).mag = 1 := by
  apply Vec.mag_of_sq_one
  linear_combination (1/2 : ℝ) * Real.sq_sqrt (show (0:ℝ) ≤ 2 by norm_num)

theorem angT_B : (⟨Real.sqrt 2 / 2, Real.sqrt 2 / 2, 0⟩ : Vec).angleBetween ⟨1, 0, 0⟩ =
    -(π/4) := by
  rw [angleBetween_units_eval (Real.sqrt 2 / 2) (Real.sqrt 2 / 2) 1 0
    (Real.sqrt 2 / 2) (-(Real.sqrt 2 / 2)) mag_s22
    (Vec.mag_of_sq_one 1 0 (by norm_num)) (by ring) (by ring)
    (by linarith [sqrt_two_pos]) (by linarith [sqrt_two_le_two])]
  rw [arccos_sqrt_two_div_two, signOr1_of_neg _ (by linarith [sqrt_two_pos])]
  ring

theorem angT_C : (⟨Real.sqrt 2 / 2, Real.sqrt 2 / 2, 0⟩ : Vec).angleBetween ⟨0, 1, 0⟩ =
    π/4 := by
  rw [angleBetween_units_eval (Real.sqrt 2 / 2) (Real.sqrt 2 / 2) 0 1
    (Real.sqrt 2 / 2) (Real.sqrt 2 / 2) mag_s22
    (Vec.mag_of_sq_one 0 1 (by norm_num)) (by ring) (by ring)
    (by linarith [sqrt_two_pos]) (by linarith [sqrt_two_le_two])]
  rw [arccos_sqrt_two_div_two, signOr1_of_pos _ (by linarith [sqrt_two_pos])]
  ring

theorem angS1_C : (⟨Real.sqrt 2 / 2, Real.sqrt 2 / 2, 0⟩ : Vec).angleBetween
    ⟨Real.sqrt 2 / 2, Real.sqrt 2 / 2, 0⟩ = 0 := by
  rw [angleBetween_units_eval (Real.sqrt 2 / 2) (Real.sqrt 2 / 2)
    (Real.sqrt 2 / 2) (Real.sqrt 2 / 2) 1 0 mag_s22 mag_s22
    (by linear_combination (1/2 : ℝ) * Real.sq_sqrt (show (0:ℝ) ≤ 2 by norm_num))
    (by ring) (by norm_num) (by norm_num)]
  rw [Real.arccos_one]
  ring

theorem sin_pi_div_eight_pos : 0 < Real.sin (π/8) := by
  apply Real.sin_pos_of_pos_of_lt_pi
  · linarith [Real.pi_pos]
  · linarith [Real.pi_pos]

theorem sin_lt_cos_pi_div_eight : Real.sin (π/8) < Real.cos (π/8) := by
  rw [Real.sin_pi_div_eight, Real.cos_pi_div_eight]
  have h : (2:ℝ) - Real.sqrt 2 < 2 + Real.sqrt 2 := by linarith [sqrt_two_pos]
  have := Real.sqrt_lt_sqrt (by linarith [sqrt_two_le_two]) h
  linarith

theorem mag_dir2 : (⟨Real.cos (π/8), -Real.sin (π/8), 0⟩ : Vec).mag = 1 := by
  apply Vec.mag_of_sq_one
  linear_combination Real.sin_sq_add_cos_sq (π/8)

theorem angS2_C : (⟨Real.cos (π/8), -Real.sin (π/8), 0⟩ : Vec).angleBetween ⟨1, 0, 0⟩ =
    π/8 := by
  rw [angleBetween_units_eval (Real.cos (π/8)) (-Real.sin (π/8)) 1 0
    (Real.cos (π/8)) (Real.sin (π/8)) mag_dir2
    (Vec.mag_of_sq_one 1 0 (by norm_num)) (by ring) (by ring)
    (Real.neg_one_le_cos _) (Real.cos_le_one _)]
  rw [Real.arccos_cos (by linarith [Real.pi_pos]) (by linarith [Real.pi_pos]),
    signOr1_of_pos _ sin_pi_div_eight_pos]
  ring

theorem angS2_D : (⟨Real.cos (π/8), -Real.sin (π/8), 0⟩ : Vec).angleBetween
    ⟨Real.sqrt 2 / 2, -(Real.sqrt 2 / 2), 0⟩ = -(π/8) := by
  have hd : Real.cos (π/8) * (Real.sqrt 2 / 2) + -Real.sin (π/8) * -(Real.sqrt 2 / 2) =
      Real.cos (π/8) := by
    have h1 := Real.cos_sub (π/8) (π/4)
    rw [show π/8 - π/4 = -(π/8) from by ring, Real.cos_neg] at h1
    rw [Real.cos_pi_div_four, Real.sin_pi_div_four] at h1
    linarith
  have hcz : Real.cos (π/8) * -(Real.sqrt 2 / 2) - -Real.sin (π/8) * (Real.sqrt 2 / 2) =
      Real.sqrt 2 / 2 * (Real.sin (π/8) - Real.cos (π/8)) := by ring
  rw [angleBetween_units_eval (Real.cos (π/8)) (-Real.sin (π/8))
    (Real.sqrt 2 / 2) (-(Real.sqrt 2 / 2)) (Real.cos (π/8))
    (Real.sqrt 2 / 2 * (Real.sin (π/8) - Real.cos (π/8))) mag_dir2
    (by apply Vec.mag_of_sq_one
        linear_combination (1/2 : ℝ) * Real.sq_sqrt (show (0:ℝ) ≤ 2 by norm_num))
    hd hcz (Real.neg_one_le_cos _) (Real.cos_le_one _)]
  rw [Real.arccos_cos (by linarith [Real.pi_pos]) (by linarith [Real.pi_pos]),
    signOr1_of_neg _ (by nlinarith [sqrt_two_pos, sin_lt_cos_pi_div_eight])]
  ring

set_option maxRecDepth 8000 in
theorem hull_tri : calcConvexHullGo [(⟨0,0,0⟩ : Vec)] [(⟨1,0,0⟩ : Vec), ⟨0,1,0⟩] =
    [(⟨0,0,0⟩ : Vec), ⟨0,1,0⟩] := by
  have hlast : jsAtD [(⟨0,0,0⟩ : Vec)] (-1) vec0 = ⟨0,0,0⟩ := by
    norm_num [jsAtD, jsAt, show ((-1:ℤ) % (1:ℤ)).toNat = 0 from by decide]
  have hu1 : (⟨1,0,0⟩ : Vec).norm = ⟨1,0,0⟩ := Vec.norm_of_sq_one 1 0 (by norm_num)
  have hu2 : (⟨0,1,0⟩ : Vec).norm = ⟨0,1,0⟩ := Vec.norm_of_sq_one 0 1 (by norm_num)
  have hm1 : (⟨1,0,0⟩ : Vec).mag = 1 := Vec.mag_of_sq_one 1 0 (by norm_num)
  have hm2 : (⟨0,1,0⟩ : Vec).mag = 1 := Vec.mag_of_sq_one 0 1 (by norm_num)
  have hfa : Vec.fromAngle (π/4) = ⟨Real.sqrt 2/2, Real.sqrt 2/2, 0⟩ := by
    rw [Vec.fromAngle, Real.cos_pi_div_four, Real.sin_pi_div_four]
  have hh1 : (⟨1,0,0⟩ : Vec).heading = 0 := by
    rw [Vec.heading]
    exact atan2_zero_one
  have hh2 : (⟨0,1,0⟩ : Vec).heading = π/2 := by
    rw [Vec.heading]
    exact atan2_one_zero
  rw [calcConvexHullGo]
  rw [dif_pos (by norm_num : 1 < List.length [(⟨1,0,0⟩ : Vec), ⟨0,1,0⟩])]
  simp only [hlast, Vec.sub, List.map_cons, List.map_nil]
  norm_num
  simp only [hh1, hh2, wavg_tri, hfa, hu1, hu2, hm1, hm2, angT_B, angT_C]
  simp only [argAt_tri, Option.getD_some]
  norm_num
  rw [calcConvexHullGo]
  norm_num

set_option maxRecDepth 8000 in
theorem hull_square : calcConvexHullGo [(⟨0,0,0⟩ : Vec)]
    [(⟨0,1,0⟩ : Vec), ⟨1,1,0⟩, ⟨1,0,0⟩] =
    [(⟨0,0,0⟩ : Vec), ⟨0,1,0⟩, ⟨1,1,0⟩, ⟨1,0,0⟩] := by
  have hlast : jsAtD [(⟨0,0,0⟩ : Vec)] (-1) vec0 = ⟨0,0,0⟩ := by
    norm_num [jsAtD, jsAt, show ((-1:ℤ) % (1:ℤ)).toNat = 0 from by decide]
  have hlast2 : jsAtD [(⟨0,0,0⟩ : Vec), ⟨0,1,0⟩] (-1) vec0 = ⟨0,1,0⟩ := by
    norm_num [jsAtD, jsAt, show ((-1:ℤ) % (2:ℤ)).toNat = 1 from by decide]
  have hu1 : (⟨1,0,0⟩ : Vec).norm = ⟨1,0,0⟩ := Vec.norm_of_sq_one 1 0 (by norm_num)
  have hu2 : (⟨0,1,0⟩ : Vec).norm = ⟨0,1,0⟩ := Vec.norm_of_sq_one 0 1 (by norm_num)
  have hm1 : (⟨1,0,0⟩ : Vec).mag = 1 := Vec.mag_of_sq_one 1 0 (by norm_num)
  have hm2 : (⟨0,1,0⟩ : Vec).mag = 1 := Vec.mag_of_sq_one 0 1 (by norm_num)
  have hmag11 : (⟨1,1,0⟩ : Vec).mag = Real.sqrt 2 := by
    rw [Vec.mag_eval]
    norm_num
  have hmag1n1 : (⟨1,-1,0⟩ : Vec).mag = Real.sqrt 2 := by
    rw [Vec.mag_eval]
    norm_num
  have hfa : Vec.fromAngle (π/4) = ⟨Real.sqrt 2/2, Real.sqrt 2/2, 0⟩ := by
    rw [Vec.fromAngle, Real.cos_pi_div_four, Real.sin_pi_div_four]
  have hfa2 : Vec.fromAngle (15 * π / 8) = ⟨Real.cos (π/8), -Real.sin (π/8), 0⟩ := by
    rw [Vec.fromAngle, show 15 * π / 8 = 2 * π - π/8 from by ring,
      Real.cos_two_pi_sub, Real.sin_two_pi_sub]
  have hh1 : (⟨1,0,0⟩ : Vec).heading = 0 := by
    rw [Vec.heading]
    exact atan2_zero_one
  have hh2 : (⟨0,1,0⟩ : Vec).heading = π/2 := by
    rw [Vec.heading]
    exact atan2_one_zero
  have hh3 : (⟨1,1,0⟩ : Vec).heading = π/4 := by
    rw [Vec.heading]
    show atan2 1 1 = π/4
    rw [atan2_pos_x _ _ one_pos]
    norm_num [Real.arctan_one]
  have hh4 : (⟨1,-1,0⟩ : Vec).heading = -(π/4) := by
    rw [Vec.heading]
    show atan2 (-1) 1 = -(π/4)
    rw [atan2_pos_x _ _ one_pos]
    norm_num [Real.arctan_neg, Real.arctan_one]
  -- iteration 1
  rw [calcConvexHullGo]
  rw [dif_pos (by norm_num : 1 < List.length [(⟨0,1,0⟩ : Vec), ⟨1,1,0⟩, ⟨1,0,0⟩])]
  simp only [hlast, Vec.sub, List.map_cons, List.map_nil]
  norm_num
  simp only [hh1, hh2, hh3, wavg_sq1, hfa, hu1, hu2, hm1, hm2, hmag11,
    norm_one_one, angT_B, angT_C, angS1_C]
  simp only [argAt_sq1, Option.getD_some]
  norm_num
  -- iteration 2
  rw [calcConvexHullGo]
  rw [dif_pos (by norm_num : 1 < List.length [(⟨1,1,0⟩ : Vec), ⟨1,0,0⟩])]
  simp only [hlast2, Vec.sub, List.map_cons, List.map_nil]
  norm_num
  simp only [hh1, hh4, wavg_sq2, hfa2, hu1, hm1, hmag1n1,
    norm_one_negone, angS2_C, angS2_D]
  simp only [argAt_sq2, Option.getD_some]
  norm_num
  -- iteration 3
  rw [calcConvexHullGo]
  norm_num

/-- C8 (counterexample): the convex-hull walker does not preserve a convex
polygon given counter-clockwise in the mathematical convention (y up).
On the right triangle (0,0), (1,0), (0,1) — convex and math-CCW — the
walker's first step scores (0,1) with angle +π/4 and (1,0) with angle
−π/4 against the averaged reference direction, so it jumps straight to
(0,1) and drops (1,0): the output is not the input sequence. -/
theorem convex_hull_drops_ccw_vertex :
    IsConvexCCWMath [(⟨0,0,0⟩ : Vec), ⟨1,0,0⟩, ⟨0,1,0⟩] ∧
    calcConvexHull [(⟨0,0,0⟩ : Vec), ⟨1,0,0⟩, ⟨0,1,0⟩] ≠
      [(⟨0,0,0⟩ : Vec), ⟨1,0,0⟩, ⟨0,1,0⟩] := by
  constructor
  · constructor
    · norm_num
    · intro i hi
      norm_num at hi
      interval_cases i <;>
        norm_num [jsAtD, jsAt, Vec.sub, Vec.cross, vec0,
          show ((0:ℤ) % 3).toNat = 0 from by decide,
          show ((1:ℤ) % 3).toNat = 1 from by decide,
          show ((2:ℤ) % 3).toNat = 2 from by decide,
          show ((3:ℤ) % 3).toNat = 0 from by decide,
          show ((4:ℤ) % 3).toNat = 1 from by decide,
          show ((0:ℤ)).toNat = 0 from rfl, show ((1:ℤ)).toNat = 1 from rfl,
          show ((2:ℤ)).toNat = 2 from rfl, show ((3:ℤ)).toNat = 3 from rfl]
  · show calcConvexHullGo [(⟨0,0,0⟩ : Vec)] [(⟨1,0,0⟩ : Vec), ⟨0,1,0⟩] ≠ _
    rw [hull_tri]
    intro h
    have hlen := congrArg List.length h
    simp at hlen

/-- C8 (amended): the convex-hull walker preserves a convex polygon given
counter-clockwise in the screen convention (y down), which is clockwise
in the mathematical convention: on the unit square listed as (0,0),
(0,1), (1,1), (1,0) it returns the identical point sequence, dropping no
points. -/
theorem convex_hull_screen_ccw_square_identity :
    IsConvexCCWScreen [(⟨0,0,0⟩ : Vec), ⟨0,1,0⟩, ⟨1,1,0⟩, ⟨1,0,0⟩] ∧
    calcConvexHull [(⟨0,0,0⟩ : Vec), ⟨0,1,0⟩, ⟨1,1,0⟩, ⟨1,0,0⟩] =
      [(⟨0,0,0⟩ : Vec), ⟨0,1,0⟩, ⟨1,1,0⟩, ⟨1,0,0⟩] := by
  constructor
  · constructor
    · norm_num
    · intro i hi
      norm_num at hi
      interval_cases i <;>
        norm_num [jsAtD, jsAt, Vec.sub, Vec.cross, vec0,
          show ((0:ℤ) % 4).toNat = 0 from by decide,
          show ((1:ℤ) % 4).toNat = 1 from by decide,
          show ((2:ℤ) % 4).toNat = 2 from by decide,
          show ((3:ℤ) % 4).toNat = 3 from by decide,
          show ((4:ℤ) % 4).toNat = 0 from by decide,
          show ((5:ℤ) % 4).toNat = 1 from by decide,
          show ((0:ℤ)).toNat = 0 from rfl, show ((1:ℤ)).toNat = 1 from rfl,
          show ((2:ℤ)).toNat = 2 from rfl, show ((3:ℤ)).toNat = 3 from rfl]
  · show calcConvexHullGo [(⟨0,0,0⟩ : Vec)] [(⟨0,1,0⟩ : Vec), ⟨1,1,0⟩, ⟨1,0,0⟩] = _
    exact hull_square

end
